import Mathlib

/-!
Shallow embedding of the matching engine of PxPatel/Distributed-Matching-Engine.
Prices (Go `float64`) are modelled as exact rationals; order sizes (Go `int`)
as integers; order ids (Go `uint64`) as naturals; wall-clock instants as an
abstract `Nat` passed to the operations that read the clock.  Go maps keyed by
price are modelled as association lists with in-place update, which fixes one
deterministic iteration order for the map traversals of the source.
-/

set_option maxRecDepth 10000

namespace MatchingSpec

/-- Order kinds, from the `OrderType` constants of the source. -/
inductive OrderType where
  | noActionOrder
  | marketOrder
  | limitOrder
  | cancelOrder
  | stopMarketOrder
  | stopLimitOrder
deriving DecidableEq, Repr

/-- Order sides, from the `SideType` constants of the source. -/
inductive SideType where
  | noActionSide
  | buy
  | sell
deriving DecidableEq, Repr

/-- The `Order` record of the source. -/
structure Order where
  id : Nat
  userId : String
  symbol : String
  orderType : OrderType
  side : SideType
  price : ℚ
  stopPrice : ℚ
  size : Int
  timeStamp : Nat
deriving DecidableEq, Repr

/-- The `Trade` record of the source (`internal/types/trade.go`). -/
structure Trade where
  tradeId : Nat
  buyOrderId : Nat
  sellOrderId : Nat
  price : ℚ
  size : Int
  timestamp : Nat
deriving DecidableEq, Repr

/-- `Order.IsValid` from the source. -/
def Order.IsValid (o : Order) : Bool :=
  if o.orderType = .noActionOrder ∨ o.side = .noActionSide then false
  else if o.size ≤ 0 then false
  else if o.orderType = .limitOrder ∧ o.price ≤ 0 then false
  else true

/-- One side of the book: the Go map `map[float64][]*Order`, as an association
list from price to the FIFO block of resting orders at that price. -/
abbrev BookSide := List (ℚ × List Order)

/-- Go map read `side[p]`: the block at price `p`, `[]` (Go `nil`) if absent. -/
def lookupLevel (s : BookSide) (p : ℚ) : List Order :=
  match s.find? (fun l => decide (l.1 = p)) with
  | some l => l.2
  | none => []

/-- Go map write `side[p] = blk`: replace the entry in place, or append a new
entry when the key is absent. -/
def setLevel : BookSide → ℚ → List Order → BookSide
  | [], p, blk => [(p, blk)]
  | (q, b) :: rest, p, blk =>
    if q = p then (p, blk) :: rest else (q, b) :: setLevel rest p blk

/-- Go map `delete(side, p)`. -/
def eraseLevel (s : BookSide) (p : ℚ) : BookSide :=
  s.filter (fun l => decide (¬ l.1 = p))

/-- The inner loop of `findOrderInBookSide`: first index in a block whose
order carries the id. -/
def findOrderIdx : List Order → Nat → Option Nat
  | [], _ => none
  | o :: rest, oid =>
    if o.id = oid then some 0 else (findOrderIdx rest oid).map (· + 1)

/-- `findOrderInBookSide` of the source: locate an order id, returning the
price level and the index inside that level's block.  (The source also returns
the order pointer itself, which none of the embedded operations consume.) -/
def findOrderInBookSide : BookSide → Nat → Option (ℚ × Nat)
  | [], _ => none
  | (p, blk) :: rest, oid =>
    match findOrderIdx blk oid with
    | some i => some (p, i)
    | none => findOrderInBookSide rest oid

/-- Body shared by `DeleteBidOrder` / `DeleteAskOrder` of the source: erase the
order at its found index and drop the price level if it becomes empty. -/
def DeleteOrderFromSide (s : BookSide) (oid : Nat) : Bool × BookSide :=
  match findOrderInBookSide s oid with
  | none => (false, s)
  | some (p, i) =>
    let blk := (lookupLevel s p).eraseIdx i
    if blk = [] then (true, eraseLevel s p) else (true, setLevel s p blk)

/-- The `OrderBook` record of the source. -/
structure OrderBook where
  bids : BookSide
  asks : BookSide
deriving DecidableEq, Repr

/-- `NewOrderBook` of the source. -/
def NewOrderBook : OrderBook := ⟨[], []⟩

/-- `OrderBook.AddBidOrder` of the source: append to the block at the order's
price (creating the level when absent). -/
def AddBidOrder (b : OrderBook) (o : Order) : OrderBook :=
  { b with bids := setLevel b.bids o.price (lookupLevel b.bids o.price ++ [o]) }

/-- `OrderBook.AddAskOrder` of the source. -/
def AddAskOrder (b : OrderBook) (o : Order) : OrderBook :=
  { b with asks := setLevel b.asks o.price (lookupLevel b.asks o.price ++ [o]) }

/-- `OrderBook.DeleteBidOrder` of the source. -/
def DeleteBidOrder (b : OrderBook) (oid : Nat) : Bool × OrderBook :=
  let r := DeleteOrderFromSide b.bids oid
  (r.1, { b with bids := r.2 })

/-- `OrderBook.DeleteAskOrder` of the source. -/
def DeleteAskOrder (b : OrderBook) (oid : Nat) : Bool × OrderBook :=
  let r := DeleteOrderFromSide b.asks oid
  (r.1, { b with asks := r.2 })

/-- `OrderBook.DeleteOrderById` of the source:
`DeleteBidOrder(id) || DeleteAskOrder(id)` with short-circuit. -/
def DeleteOrderById (b : OrderBook) (oid : Nat) : Bool × OrderBook :=
  let r := DeleteBidOrder b oid
  if r.1 then r else DeleteAskOrder r.2 oid

/-- `math.MaxFloat64`, the sentinel of `GetBestAsk`, as an exact rational
(the value is `2 ^ 1024 - 2 ^ 971`, computed in `ℕ` and cast). -/
def maxFloat : ℚ := ((2 ^ 1024 - 2 ^ 971 : ℕ) : ℚ)

/-- `OrderBook.GetBestBid` of the source: scan all keys for the maximum,
starting from `0.0`, and return that key with its block. -/
def GetBestBid (bids : BookSide) : ℚ × List Order :=
  if bids = [] then (0, [])
  else
    let m := (bids.map Prod.fst).foldl max 0
    (m, lookupLevel bids m)

/-- `OrderBook.GetBestAsk` of the source: scan all keys for the minimum,
starting from `math.MaxFloat64`, and return that key with its block. -/
def GetBestAsk (asks : BookSide) : ℚ × List Order :=
  if asks = [] then (0, [])
  else
    let m := (asks.map Prod.fst).foldl min maxFloat
    (m, lookupLevel asks m)

/-- The in-memory order store of the source
(`internal/storage/memory/order_store.go`): map plus FIFO eviction queue. -/
structure MemOrderStore where
  orders : List (Nat × Order)
  orderIDs : List Nat
  maxSize : Nat
deriving DecidableEq, Repr

/-- Go map write `orders[id] = order`. -/
def upsert : List (Nat × Order) → Nat → Order → List (Nat × Order)
  | [], k, o => [(k, o)]
  | (k', o') :: rest, k, o =>
    if k' = k then (k, o) :: rest else (k', o') :: upsert rest k o

/-- Go map membership test on the store map. -/
def hasKey (m : List (Nat × Order)) (k : Nat) : Bool :=
  m.any (fun e => decide (e.1 = k))

/-- Removal of the first occurrence from the FIFO queue (the source's scan
with `break`). -/
def removeFirst : List Nat → Nat → List Nat
  | [], _ => []
  | x :: rest, k => if x = k then rest else x :: removeFirst rest k

/-- `InMemoryOrderStore.Save`: on a new id, enqueue it and evict the oldest
entry when over capacity; then upsert the order. -/
def MemOrderStore.Save (s : MemOrderStore) (o : Order) : MemOrderStore :=
  let s1 :=
    if hasKey s.orders o.id then s
    else
      let ids := s.orderIDs ++ [o.id]
      if s.maxSize < ids.length then
        { s with orders := s.orders.filter (fun e => decide (¬ e.1 = ids.headD 0)),
                 orderIDs := ids.tail }
      else { s with orderIDs := ids }
  { s1 with orders := upsert s1.orders o.id o }

/-- `InMemoryOrderStore.Get`: `none` models the not-found error return. -/
def MemOrderStore.Get (s : MemOrderStore) (oid : Nat) : Option Order :=
  (s.orders.find? (fun e => decide (e.1 = oid))).map Prod.snd

/-- `InMemoryOrderStore.Remove`: delete from the map and from the queue. -/
def MemOrderStore.Remove (s : MemOrderStore) (oid : Nat) : MemOrderStore :=
  { s with orders := s.orders.filter (fun e => decide (¬ e.1 = oid)),
           orderIDs := removeFirst s.orderIDs oid }

/-- The in-memory trade store of the source
(`internal/storage/memory_trade_store.go`): bounded append-only buffer. -/
structure MemTradeStore where
  trades : List Trade
  maxSize : Nat
deriving DecidableEq, Repr

/-- `InMemoryTradeStore.Save`: append, then trim to the newest `maxSize`. -/
def MemTradeStore.Save (s : MemTradeStore) (t : Trade) : MemTradeStore :=
  let ts := s.trades ++ [t]
  if s.maxSize < ts.length then { s with trades := ts.drop (ts.length - s.maxSize) }
  else { s with trades := ts }

/-- `InMemoryTradeStore.GetRecent`: clamp the limit to the stored count and
return the last `limit` trades in append (oldest-first) order. -/
def MemTradeStore.GetRecent (s : MemTradeStore) (limit : Int) : List Trade :=
  let lim : Nat :=
    if limit ≤ 0 ∨ (s.trades.length : Int) < limit then s.trades.length else limit.toNat
  s.trades.drop (s.trades.length - lim)

/-- The engine state: the order book plus the two stores of the default
configuration (channels and the atomic id counter carry no book state). -/
structure EngineState where
  orderBook : OrderBook
  orderStore : MemOrderStore
  tradeStore : MemTradeStore
deriving DecidableEq, Repr

/-- `Engine.TrackOrder`. -/
def TrackOrder (st : EngineState) (o : Order) : EngineState :=
  { st with orderStore := st.orderStore.Save o }

/-- `Engine.UntrackOrder`. -/
def UntrackOrder (st : EngineState) (oid : Nat) : EngineState :=
  { st with orderStore := st.orderStore.Remove oid }

/-- `Engine.GetOrder`. -/
def GetOrder (st : EngineState) (oid : Nat) : Option Order :=
  st.orderStore.Get oid

/-- `Engine.AddTradeToHistory`. -/
def AddTradeToHistory (st : EngineState) (t : Trade) : EngineState :=
  { st with tradeStore := st.tradeStore.Save t }

/-- `Engine.createTrade`: price is always the resting (opposite) order's
price; buy/sell ids are assigned by the incoming order's side. -/
def createTrade (incoming opposite : Order) (size : Int) (now : Nat) : Trade :=
  if incoming.side = .buy then
    { tradeId := 0, buyOrderId := incoming.id, sellOrderId := opposite.id,
      price := opposite.price, size := size, timestamp := now }
  else
    { tradeId := 0, buyOrderId := opposite.id, sellOrderId := incoming.id,
      price := opposite.price, size := size, timestamp := now }

/-- State of the shared matching loop of `executeMarketOrder` /
`executeLimitOrder`: the consumed book side, the order store, the residual
size, and the trades emitted so far. -/
structure LoopResult where
  side : BookSide
  store : MemOrderStore
  remaining : Int
  trades : List Trade
deriving Repr

/-- The matching loop shared by `executeMarketOrder` and `executeLimitOrder`
(the market loop is the instance whose `canMatch` is constantly true).  Each
round takes the head of the best opposite level, emits a trade at the resting
price, updates both residuals in place, and unlinks the resting order (book
and store) when it is fully filled.  `fuel` bounds the rounds; the engine
calls it with more fuel than the loop can consume. -/
def matchLoop (incoming : Order) (now : Nat) (canMatch : ℚ → ℚ → Bool)
    (best : BookSide → ℚ × List Order) :
    Nat → BookSide → MemOrderStore → Int → LoopResult
  | 0, s, store, remaining => ⟨s, store, remaining, []⟩
  | fuel + 1, s, store, remaining =>
    if remaining ≤ 0 then ⟨s, store, remaining, []⟩
    else
      match (best s).2 with
      | [] => ⟨s, store, remaining, []⟩
      | opp :: rest =>
        if canMatch incoming.price (best s).1 = false then ⟨s, store, remaining, []⟩
        else
          let fill := if opp.size < remaining then opp.size else remaining
          let trade := createTrade incoming opp fill now
          let s1 := setLevel s (best s).1 ({ opp with size := opp.size - fill } :: rest)
          if opp.size - fill = 0 then
            let s2 := (DeleteOrderFromSide s1 opp.id).2
            let r := matchLoop incoming now canMatch best fuel s2 (store.Remove opp.id)
              (remaining - fill)
            ⟨r.side, r.store, r.remaining, trade :: r.trades⟩
          else
            let r := matchLoop incoming now canMatch best fuel s1 store (remaining - fill)
            ⟨r.side, r.store, r.remaining, trade :: r.trades⟩

/-- Total number of resting orders on a side (used only to size the fuel). -/
def countOrders (s : BookSide) : Nat :=
  (s.map (fun l => l.2.length)).sum

/-- `Engine.executeMarketOrder`: consume the opposite side with no price
bound; the residual is dropped. -/
def executeMarketOrder (st : EngineState) (o : Order) (now : Nat) :
    List Trade × EngineState :=
  if o.side = .buy then
    let r := matchLoop o now (fun _ _ => true) GetBestAsk
      (countOrders st.orderBook.asks + 2) st.orderBook.asks st.orderStore o.size
    (r.trades, { st with orderBook := { st.orderBook with asks := r.side },
                         orderStore := r.store })
  else
    let r := matchLoop o now (fun _ _ => true) GetBestBid
      (countOrders st.orderBook.bids + 2) st.orderBook.bids st.orderStore o.size
    (r.trades, { st with orderBook := { st.orderBook with bids := r.side },
                         orderStore := r.store })

/-- `Engine.executeLimitOrder`: match while crossing, then rest the residual
on the own side (or untrack on full fill). -/
def executeLimitOrder (st : EngineState) (o : Order) (now : Nat) :
    List Trade × EngineState :=
  if o.side = .buy then
    let r := matchLoop o now (fun limitPrice bestPrice => decide (bestPrice ≤ limitPrice))
      GetBestAsk (countOrders st.orderBook.asks + 2) st.orderBook.asks st.orderStore o.size
    let st1 : EngineState :=
      { st with orderBook := { st.orderBook with asks := r.side }, orderStore := r.store }
    if 0 < r.remaining then
      (r.trades, { st1 with orderBook := AddBidOrder st1.orderBook { o with size := r.remaining } })
    else (r.trades, UntrackOrder st1 o.id)
  else
    let r := matchLoop o now (fun limitPrice bestPrice => decide (limitPrice ≤ bestPrice))
      GetBestBid (countOrders st.orderBook.bids + 2) st.orderBook.bids st.orderStore o.size
    let st1 : EngineState :=
      { st with orderBook := { st.orderBook with bids := r.side }, orderStore := r.store }
    if 0 < r.remaining then
      (r.trades, { st1 with orderBook := AddAskOrder st1.orderBook { o with size := r.remaining } })
    else (r.trades, UntrackOrder st1 o.id)

/-- `Engine.CancelOrder`: delete from the book, and untrack only when a
deletion occurred. -/
def CancelOrder (st : EngineState) (oid : Nat) : Bool × EngineState :=
  let r := DeleteOrderById st.orderBook oid
  if r.1 then (true, UntrackOrder { st with orderBook := r.2 } oid)
  else (false, { st with orderBook := r.2 })

/-- `Engine.PlaceOrder`: track non-cancel orders, dispatch by kind, append
trades to history, and untrack market orders at the end. -/
def PlaceOrder (st : EngineState) (o : Order) (now : Nat) :
    List Trade × EngineState :=
  let st0 := if o.orderType = .cancelOrder then st else TrackOrder st o
  match o.orderType with
  | .marketOrder =>
    let r := executeMarketOrder st0 o now
    let st2 := r.1.foldl AddTradeToHistory r.2
    (r.1, UntrackOrder st2 o.id)
  | .limitOrder =>
    let r := executeLimitOrder st0 o now
    let st2 := r.1.foldl AddTradeToHistory r.2
    (r.1, st2)
  | .cancelOrder => ([], (CancelOrder st0 o.id).2)
  | _ => ([], st0)

/-- Error-combining logic shared by the composite-store write methods
(`Save`, `SaveBatch`, `Remove`, `Update` of `CompositeOrderStore` and
`CompositeTradeStore`): invoke each layer in order and keep the last observed
error.  A layer's outcome is `none` on success, `some e` on failure. -/
def compositeWrite {E : Type} (results : List (Option E)) : Option E :=
  results.foldl
    (fun lastErr r => match r with | some e => some e | none => lastErr) none

/-- `CompositeOrderStore.Get`: each layer's outcome is a pair
(found record, error); return the first outcome that is error-free and found,
else `(nil, nil)`. -/
def compositeGet {A E : Type} : List (Option A × Option E) → Option A × Option E
  | [] => (none, none)
  | r :: rest =>
    if r.2.isNone && r.1.isSome then (r.1, none) else compositeGet rest

/-! ### Association-list lemmas for book sides -/

theorem lookupLevel_nil (p : ℚ) : lookupLevel [] p = [] := rfl

theorem lookupLevel_cons (q : ℚ) (b : List Order) (rest : BookSide) (p : ℚ) :
    lookupLevel ((q, b) :: rest) p = if q = p then b else lookupLevel rest p := by
  by_cases h : q = p <;> simp [lookupLevel, List.find?, h]

theorem lookupLevel_setLevel_self (s : BookSide) (p : ℚ) (blk : List Order) :
    lookupLevel (setLevel s p blk) p = blk := by
  induction s with
  | nil => simp [setLevel, lookupLevel_cons]
  | cons hd tl ih =>
    obtain ⟨q, b⟩ := hd
    by_cases h : q = p
    · simp [setLevel, h, lookupLevel_cons]
    · simp [setLevel, h, lookupLevel_cons, ih]

theorem setLevel_cons (q : ℚ) (b : List Order) (tl : BookSide) (p : ℚ)
    (blk : List Order) :
    setLevel ((q, b) :: tl) p blk =
      if q = p then (p, blk) :: tl else (q, b) :: setLevel tl p blk := rfl

theorem eraseLevel_cons (q : ℚ) (b : List Order) (tl : BookSide) (p : ℚ) :
    eraseLevel ((q, b) :: tl) p =
      if q = p then eraseLevel tl p else (q, b) :: eraseLevel tl p := by
  by_cases h : q = p <;> simp [eraseLevel, List.filter_cons, h]

theorem lookupLevel_setLevel_ne (s : BookSide) (p q : ℚ) (blk : List Order)
    (h : q ≠ p) : lookupLevel (setLevel s p blk) q = lookupLevel s q := by
  have hpq : p ≠ q := Ne.symm h
  induction s with
  | nil =>
    show lookupLevel [(p, blk)] q = lookupLevel [] q
    rw [lookupLevel_cons, if_neg hpq]
  | cons hd tl ih =>
    obtain ⟨q', b⟩ := hd
    rw [setLevel_cons]
    by_cases h' : q' = p
    · subst h'
      rw [if_pos rfl, lookupLevel_cons, if_neg hpq, lookupLevel_cons, if_neg hpq]
    · rw [if_neg h', lookupLevel_cons, lookupLevel_cons]
      by_cases hq : q' = q
      · rw [if_pos hq, if_pos hq]
      · rw [if_neg hq, if_neg hq]
        exact ih

theorem lookupLevel_eraseLevel_self (s : BookSide) (p : ℚ) :
    lookupLevel (eraseLevel s p) p = [] := by
  induction s with
  | nil => rfl
  | cons hd tl ih =>
    obtain ⟨q, b⟩ := hd
    rw [eraseLevel_cons]
    by_cases h : q = p
    · rw [if_pos h]
      exact ih
    · rw [if_neg h, lookupLevel_cons, if_neg h]
      exact ih

theorem lookupLevel_eraseLevel_ne (s : BookSide) (p q : ℚ) (h : q ≠ p) :
    lookupLevel (eraseLevel s p) q = lookupLevel s q := by
  induction s with
  | nil => rfl
  | cons hd tl ih =>
    obtain ⟨q', b⟩ := hd
    rw [eraseLevel_cons]
    by_cases h' : q' = p
    · subst h'
      rw [if_pos rfl, lookupLevel_cons, if_neg (Ne.symm h)]
      exact ih
    · rw [if_neg h', lookupLevel_cons, lookupLevel_cons]
      by_cases hq : q' = q
      · rw [if_pos hq, if_pos hq]
      · rw [if_neg hq, if_neg hq]
        exact ih

theorem setLevel_setLevel (s : BookSide) (p : ℚ) (a b : List Order) :
    setLevel (setLevel s p a) p b = setLevel s p b := by
  induction s with
  | nil => simp [setLevel]
  | cons hd tl ih =>
    obtain ⟨q, bl⟩ := hd
    rw [setLevel_cons]
    by_cases h : q = p
    · rw [if_pos h, setLevel_cons, if_pos rfl, setLevel_cons, if_pos h]
    · rw [if_neg h, setLevel_cons, if_neg h, setLevel_cons, if_neg h, ih]

theorem eraseLevel_setLevel (s : BookSide) (p : ℚ) (blk : List Order) :
    eraseLevel (setLevel s p blk) p = eraseLevel s p := by
  induction s with
  | nil =>
    show eraseLevel [(p, blk)] p = eraseLevel [] p
    rw [eraseLevel_cons, if_pos rfl]
  | cons hd tl ih =>
    obtain ⟨q, bl⟩ := hd
    rw [setLevel_cons]
    by_cases h : q = p
    · rw [if_pos h, eraseLevel_cons, if_pos rfl, eraseLevel_cons, if_pos h]
    · rw [if_neg h, eraseLevel_cons, if_neg h, eraseLevel_cons, if_neg h, ih]

theorem eraseLevel_of_not_mem (s : BookSide) (p : ℚ)
    (h : p ∉ s.map Prod.fst) : eraseLevel s p = s := by
  induction s with
  | nil => rfl
  | cons hd tl ih =>
    obtain ⟨q, b⟩ := hd
    simp only [List.map_cons, List.mem_cons] at h
    push_neg at h
    rw [eraseLevel_cons, if_neg h.1.symm, ih h.2]

theorem setLevel_of_not_mem (s : BookSide) (p : ℚ) (blk : List Order)
    (h : p ∉ s.map Prod.fst) : setLevel s p blk = s ++ [(p, blk)] := by
  induction s with
  | nil => rfl
  | cons hd tl ih =>
    obtain ⟨q, b⟩ := hd
    simp only [List.map_cons, List.mem_cons] at h
    push_neg at h
    rw [setLevel_cons, if_neg h.1.symm, ih h.2]
    rfl

theorem setLevel_lookup_self (s : BookSide) (p : ℚ)
    (h : p ∈ s.map Prod.fst) : setLevel s p (lookupLevel s p) = s := by
  induction s with
  | nil => simp at h
  | cons hd tl ih =>
    obtain ⟨q, b⟩ := hd
    by_cases h' : q = p
    · subst h'
      simp [setLevel, lookupLevel_cons]
    · simp only [List.map_cons, List.mem_cons] at h
      rcases h with h | h

      · exact absurd h.symm h'
      · simp [setLevel, h', lookupLevel_cons, ih h]

theorem keys_setLevel_of_mem (s : BookSide) (p : ℚ) (blk : List Order)
    (h : p ∈ s.map Prod.fst) :
    (setLevel s p blk).map Prod.fst = s.map Prod.fst := by
  induction s with
  | nil => simp at h
  | cons hd tl ih =>
    obtain ⟨q, b⟩ := hd
    by_cases h' : q = p
    · simp [setLevel, h']
    · simp only [List.map_cons, List.mem_cons] at h
      rcases h with h | h
      · exact absurd h.symm h'
      · simp [setLevel, h', ih h]

theorem keys_eraseLevel (s : BookSide) (p : ℚ) :
    (eraseLevel s p).map Prod.fst = (s.map Prod.fst).filter (fun q => decide (¬ q = p)) := by
  induction s with
  | nil => rfl
  | cons hd tl ih =>
    obtain ⟨q, b⟩ := hd
    by_cases h : q = p
    · subst h
      simp [eraseLevel_cons, ih]
    · simp [eraseLevel_cons, h, ih]

theorem mem_keys_of_lookupLevel_ne_nil (s : BookSide) (p : ℚ)
    (h : lookupLevel s p ≠ []) : p ∈ s.map Prod.fst := by
  induction s with
  | nil => exact absurd rfl h
  | cons hd tl ih =>
    obtain ⟨q, b⟩ := hd
    by_cases h' : q = p
    · simp [h']
    · rw [lookupLevel_cons, if_neg h'] at h
      simpa using Or.inr (ih h)

theorem lookupLevel_entry_mem (s : BookSide) (p : ℚ)
    (h : p ∈ s.map Prod.fst) : (p, lookupLevel s p) ∈ s := by
  induction s with
  | nil => simp at h
  | cons hd tl ih =>
    obtain ⟨q, b⟩ := hd
    by_cases h' : q = p
    · subst h'
      simp [lookupLevel_cons]
    · simp only [List.map_cons, List.mem_cons] at h
      rcases h with h | h
      · exact absurd h.symm h'
      · rw [lookupLevel_cons, if_neg h']
        exact List.mem_cons_of_mem _ (ih h)

theorem entry_lookupLevel_of_nodup (s : BookSide) (p : ℚ) (blk : List Order)
    (hnd : (s.map Prod.fst).Nodup) (h : (p, blk) ∈ s) : lookupLevel s p = blk := by
  induction s with
  | nil => simp at h
  | cons hd tl ih =>
    obtain ⟨q, b⟩ := hd
    simp only [List.map_cons, List.nodup_cons] at hnd
    rcases List.mem_cons.mp h with h | h
    · cases h
      simp [lookupLevel_cons]
    · have hq : q ≠ p := by
        intro hqp
        subst hqp
        exact hnd.1 (List.mem_map.mpr ⟨(q, blk), h, rfl⟩)
      rw [lookupLevel_cons, if_neg hq]
      exact ih hnd.2 h

/-! ### Flattened views of a book side and side well-formedness -/

/-- All orders resting on a side, in level order then FIFO order. -/
def sideOrders (s : BookSide) : List Order :=
  (s.map Prod.snd).flatten

/-- All resting order ids on a side. -/
def sideIds (s : BookSide) : List Nat :=
  (sideOrders s).map Order.id

theorem sideOrders_nil : sideOrders [] = [] := rfl

theorem sideOrders_cons (q : ℚ) (b : List Order) (tl : BookSide) :
    sideOrders ((q, b) :: tl) = b ++ sideOrders tl := by
  simp [sideOrders]

theorem sideIds_cons (q : ℚ) (b : List Order) (tl : BookSide) :
    sideIds ((q, b) :: tl) = b.map Order.id ++ sideIds tl := by
  simp [sideIds, sideOrders_cons]

theorem mem_sideOrders_of_lookup (s : BookSide) (p : ℚ) (o : Order)
    (h : o ∈ lookupLevel s p) : o ∈ sideOrders s := by
  induction s with
  | nil => simp [lookupLevel_nil] at h
  | cons hd tl ih =>
    obtain ⟨q, b⟩ := hd
    rw [lookupLevel_cons] at h
    rw [sideOrders_cons, List.mem_append]
    by_cases hq : q = p
    · rw [if_pos hq] at h
      exact Or.inl h
    · rw [if_neg hq] at h
      exact Or.inr (ih h)

/-- Well-formedness of one side as the source maintains it: no duplicate
price keys (a Go map), no empty level, positive finite prices, every order
keyed by its own price, positive residuals, and no duplicate order ids. -/
def SideWF (s : BookSide) : Prop :=
  (s.map Prod.fst).Nodup ∧ (sideIds s).Nodup ∧
    ∀ l ∈ s, l.2 ≠ [] ∧ 0 < l.1 ∧ l.1 ≤ maxFloat ∧
      ∀ o ∈ l.2, o.price = l.1 ∧ 0 < o.size

instance (s : BookSide) : Decidable (SideWF s) := by
  unfold SideWF
  infer_instance

/-- Replacing the block of a present key with a block whose ids form a
sublist keeps the flattened ids a sublist. -/
theorem sideIds_setLevel_sublist (s : BookSide) (p : ℚ) (blk' : List Order)
    (h : (blk'.map Order.id).Sublist ((lookupLevel s p).map Order.id)) :
    (sideIds (setLevel s p blk')).Sublist (sideIds s) := by
  induction s with
  | nil =>
    rw [lookupLevel_nil] at h
    have : blk' = [] := by
      cases blk' with
      | nil => rfl
      | cons a l => simp at h
    subst this
    simp [setLevel, sideIds, sideOrders]
  | cons hd tl ih =>
    obtain ⟨q, b⟩ := hd
    rw [setLevel_cons]
    by_cases hq : q = p
    · subst hq
      rw [lookupLevel_cons, if_pos rfl] at h
      rw [if_pos rfl, sideIds_cons, sideIds_cons]
      exact h.append_right _
    · rw [lookupLevel_cons, if_neg hq] at h
      rw [if_neg hq, sideIds_cons, sideIds_cons]
      exact (ih h).append_left _

/-- Replacing the block of a present key with an id-preserving block keeps
the flattened ids unchanged. -/
theorem sideIds_setLevel_eq (s : BookSide) (p : ℚ) (blk' : List Order)
    (hmem : p ∈ s.map Prod.fst)
    (h : blk'.map Order.id = (lookupLevel s p).map Order.id) :
    sideIds (setLevel s p blk') = sideIds s := by
  induction s with
  | nil => simp at hmem
  | cons hd tl ih =>
    obtain ⟨q, b⟩ := hd
    rw [setLevel_cons]
    by_cases hq : q = p
    · subst hq
      rw [lookupLevel_cons, if_pos rfl] at h
      rw [if_pos rfl, sideIds_cons, sideIds_cons, h]
    · rw [lookupLevel_cons, if_neg hq] at h
      simp only [List.map_cons, List.mem_cons] at hmem
      rcases hmem with hmem | hmem
      · exact absurd hmem.symm hq
      · rw [if_neg hq, sideIds_cons, sideIds_cons, ih hmem h]

/-- The flattened ids of a sublist of entries form a sublist. -/
theorem sideIds_sublist_of_entries (s' s : BookSide) (h : s'.Sublist s) :
    (sideIds s').Sublist (sideIds s) := by
  induction h with
  | slnil => exact List.Sublist.refl _
  | cons e _ ih =>
    obtain ⟨q, b⟩ := e
    rw [sideIds_cons]
    exact ih.trans (List.sublist_append_right _ _) |>.trans (List.Sublist.refl _)
  | cons₂ e _ ih =>
    obtain ⟨q, b⟩ := e
    rw [sideIds_cons, sideIds_cons]
    exact ih.append_left _

theorem eraseLevel_sublist (s : BookSide) (p : ℚ) : (eraseLevel s p).Sublist s :=
  List.filter_sublist _

/-! ### Fold toolkit for the best-price scans -/

theorem le_foldl_max (l : List ℚ) (init : ℚ) : init ≤ l.foldl max init := by
  induction l generalizing init with
  | nil => exact le_refl _
  | cons a l ih => exact le_trans (le_max_left init a) (ih (max init a))

theorem mem_le_foldl_max (l : List ℚ) (init a : ℚ) (h : a ∈ l) :
    a ≤ l.foldl max init := by
  induction l generalizing init with
  | nil => simp at h
  | cons b l ih =>
    rcases List.mem_cons.mp h with h | h
    · subst h
      exact le_trans (le_max_right init a) (le_foldl_max l (max init a))
    · exact ih (max init b) h

theorem foldl_max_le (l : List ℚ) (init c : ℚ) (h0 : init ≤ c)
    (h : ∀ a ∈ l, a ≤ c) : l.foldl max init ≤ c := by
  induction l generalizing init with
  | nil => exact h0
  | cons a l ih =>
    exact ih (max init a) (max_le h0 (h a (List.mem_cons_self a l)))
      (fun b hb => h b (List.mem_cons_of_mem a hb))

theorem foldl_max_mem (l : List ℚ) (init : ℚ) :
    l.foldl max init = init ∨ l.foldl max init ∈ l := by
  induction l generalizing init with
  | nil => exact Or.inl rfl
  | cons a l ih =>
    rcases ih (max init a) with h | h
    · rcases max_cases init a with ⟨he, _⟩ | ⟨he, _⟩
      · exact Or.inl (by rw [List.foldl_cons, h, he])
      · exact Or.inr (by rw [List.foldl_cons, h, he]; exact List.mem_cons_self a l)
    · exact Or.inr (List.mem_cons_of_mem a h)

theorem foldl_min_le_init (l : List ℚ) (init : ℚ) : l.foldl min init ≤ init := by
  induction l generalizing init with
  | nil => exact le_refl _
  | cons a l ih => exact le_trans (ih (min init a)) (min_le_left init a)

theorem foldl_min_le_mem (l : List ℚ) (init a : ℚ) (h : a ∈ l) :
    l.foldl min init ≤ a := by
  induction l generalizing init with
  | nil => simp at h
  | cons b l ih =>
    rcases List.mem_cons.mp h with h | h
    · subst h
      exact le_trans (foldl_min_le_init l (min init a)) (min_le_right init a)
    · exact ih (min init b) h

theorem le_foldl_min (l : List ℚ) (init c : ℚ) (h0 : c ≤ init)
    (h : ∀ a ∈ l, c ≤ a) : c ≤ l.foldl min init := by
  induction l generalizing init with
  | nil => exact h0
  | cons a l ih =>
    exact ih (min init a) (le_min h0 (h a (List.mem_cons_self a l)))
      (fun b hb => h b (List.mem_cons_of_mem a hb))

theorem foldl_min_mem (l : List ℚ) (init : ℚ) :
    l.foldl min init = init ∨ l.foldl min init ∈ l := by
  induction l generalizing init with
  | nil => exact Or.inl rfl
  | cons a l ih =>
    rcases ih (min init a) with h | h
    · rcases min_cases init a with ⟨he, _⟩ | ⟨he, _⟩
      · exact Or.inl (by rw [List.foldl_cons, h, he])
      · exact Or.inr (by rw [List.foldl_cons, h, he]; exact List.mem_cons_self a l)
    · exact Or.inr (List.mem_cons_of_mem a h)

/-! ### Best-price characterization under well-formedness -/

theorem SideWF_keys_pos (s : BookSide) (hwf : SideWF s) (k : ℚ)
    (hk : k ∈ s.map Prod.fst) : 0 < k ∧ k ≤ maxFloat := by
  rcases List.mem_map.mp hk with ⟨l, hl, he⟩
  have := (hwf.2.2 l hl)
  exact ⟨he ▸ this.2.1, he ▸ this.2.2.1⟩

theorem lookupLevel_ne_nil_of_mem_keys (s : BookSide) (hwf : SideWF s)
    (p : ℚ) (hp : p ∈ s.map Prod.fst) : lookupLevel s p ≠ [] := by
  have hmem := lookupLevel_entry_mem s p hp
  exact (hwf.2.2 _ hmem).1

/-- Under well-formedness, `GetBestBid` of a non-empty side returns a real
key, an upper bound on all keys, and that key's (non-empty) block. -/
theorem GetBestBid_spec (s : BookSide) (hwf : SideWF s) (hne : s ≠ []) :
    (GetBestBid s).1 ∈ s.map Prod.fst ∧
    (∀ k ∈ s.map Prod.fst, k ≤ (GetBestBid s).1) ∧
    (GetBestBid s).2 = lookupLevel s (GetBestBid s).1 ∧
    (GetBestBid s).2 ≠ [] := by
  have hbb : GetBestBid s = ((s.map Prod.fst).foldl max 0, lookupLevel s ((s.map Prod.fst).foldl max 0)) := by
    rw [GetBestBid, if_neg hne]
  set m := (s.map Prod.fst).foldl max 0 with hm
  have hkeysne : s.map Prod.fst ≠ [] := by
    intro hk
    exact hne (List.map_eq_nil_iff.mp hk)
  have hmem : m ∈ s.map Prod.fst := by
    rcases foldl_max_mem (s.map Prod.fst) 0 with h | h
    · obtain ⟨k, hk⟩ := List.exists_mem_of_ne_nil _ hkeysne
      have hkpos := (SideWF_keys_pos s hwf k hk).1
      have hkle : k ≤ m := mem_le_foldl_max _ 0 k hk
      have hm0 : m = 0 := hm.trans h
      rw [hm0] at hkle
      exact absurd (lt_of_lt_of_le hkpos hkle) (lt_irrefl 0)
    · exact h
  refine ⟨?_, ?_, ?_, ?_⟩
  · rw [hbb]
    exact hmem
  · intro k hk
    rw [hbb]
    exact mem_le_foldl_max _ 0 k hk
  · rw [hbb]
  · rw [hbb]
    exact lookupLevel_ne_nil_of_mem_keys s hwf m hmem

/-- Under well-formedness, `GetBestAsk` of a non-empty side returns a real
key, a lower bound on all keys, and that key's (non-empty) block. -/
theorem GetBestAsk_spec (s : BookSide) (hwf : SideWF s) (hne : s ≠ []) :
    (GetBestAsk s).1 ∈ s.map Prod.fst ∧
    (∀ k ∈ s.map Prod.fst, (GetBestAsk s).1 ≤ k) ∧
    (GetBestAsk s).2 = lookupLevel s (GetBestAsk s).1 ∧
    (GetBestAsk s).2 ≠ [] := by
  have hba : GetBestAsk s = ((s.map Prod.fst).foldl min maxFloat, lookupLevel s ((s.map Prod.fst).foldl min maxFloat)) := by
    rw [GetBestAsk, if_neg hne]
  set m := (s.map Prod.fst).foldl min maxFloat with hm
  have hkeysne : s.map Prod.fst ≠ [] := by
    intro hk
    exact hne (List.map_eq_nil_iff.mp hk)
  have hmem : m ∈ s.map Prod.fst := by
    rcases foldl_min_mem (s.map Prod.fst) maxFloat with h | h
    · obtain ⟨k, hk⟩ := List.exists_mem_of_ne_nil _ hkeysne
      have hkub := (SideWF_keys_pos s hwf k hk).2
      have hmle : m ≤ k := foldl_min_le_mem _ maxFloat k hk
      have hmf : m = maxFloat := hm.trans h
      have : m = k := le_antisymm hmle (by rw [hmf]; exact hkub)
      rw [this]
      exact hk
    · exact h
  refine ⟨?_, ?_, ?_, ?_⟩
  · rw [hba]
    exact hmem
  · intro k hk
    rw [hba]
    exact foldl_min_le_mem _ maxFloat k hk
  · rw [hba]
  · rw [hba]
    exact lookupLevel_ne_nil_of_mem_keys s hwf m hmem

/-- Both best-price functions return the block stored at the returned key. -/
theorem best_eq_lookup (best : BookSide → ℚ × List Order)
    (hb : best = GetBestBid ∨ best = GetBestAsk) (s : BookSide) :
    (best s).2 = lookupLevel s (best s).1 := by
  rcases hb with hb | hb <;> subst hb
  · by_cases hne : s = []
    · subst hne
      rfl
    · rw [GetBestBid, if_neg hne]
  · by_cases hne : s = []
    · subst hne
      rfl
    · rw [GetBestAsk, if_neg hne]

/-! ### Order counting (loop fuel) -/

theorem countOrders_cons (q : ℚ) (b : List Order) (tl : BookSide) :
    countOrders ((q, b) :: tl) = b.length + countOrders tl := by
  simp [countOrders]

theorem countOrders_setLevel (s : BookSide) (p : ℚ) (blk' : List Order)
    (hmem : p ∈ s.map Prod.fst) :
    countOrders (setLevel s p blk') + (lookupLevel s p).length =
      countOrders s + blk'.length := by
  induction s with
  | nil => simp at hmem
  | cons hd tl ih =>
    obtain ⟨q, b⟩ := hd
    rw [setLevel_cons, lookupLevel_cons]
    by_cases hq : q = p
    · rw [if_pos hq, if_pos hq, countOrders_cons, countOrders_cons]
      ring
    · simp only [List.map_cons, List.mem_cons] at hmem
      rcases hmem with hmem | hmem
      · exact absurd hmem.symm hq
      · rw [if_neg hq, if_neg hq, countOrders_cons, countOrders_cons]
        have := ih hmem
        omega

theorem countOrders_eraseLevel (s : BookSide) (p : ℚ)
    (hnd : (s.map Prod.fst).Nodup) :
    countOrders (eraseLevel s p) + (lookupLevel s p).length = countOrders s := by
  induction s with
  | nil => rfl
  | cons hd tl ih =>
    obtain ⟨q, b⟩ := hd
    simp only [List.map_cons, List.nodup_cons] at hnd
    rw [eraseLevel_cons, lookupLevel_cons]
    by_cases hq : q = p
    · subst hq
      rw [if_pos rfl, if_pos rfl, countOrders_cons]
      have : lookupLevel tl q = [] := by
        by_contra hcon
        exact hnd.1 (mem_keys_of_lookupLevel_ne_nil tl q hcon)
      rw [eraseLevel_of_not_mem tl q (fun hc => hnd.1 hc)]
      omega
    · rw [if_neg hq, if_neg hq, countOrders_cons, countOrders_cons]
      have := ih hnd.2
      omega

/-! ### FIFO evolution of a price level -/

/-- `fifoTail old new` says `new` is obtained from `old` by consuming orders
from the head only: drop a prefix, and possibly adjust the residual size of
the new head.  This is exactly how matching may transform a level. -/
def fifoTail (old new : List Order) : Prop :=
  ∃ k, new = old.drop k ∨
    ∃ o tl sz, old.drop k = o :: tl ∧ new = { o with size := sz } :: tl

theorem fifoTail_refl (l : List Order) : fifoTail l l :=
  ⟨0, Or.inl rfl⟩

theorem fifoTail_tail (o : Order) (tl : List Order) : fifoTail (o :: tl) tl :=
  ⟨1, Or.inl rfl⟩

theorem fifoTail_head (o : Order) (tl : List Order) (sz : Int) :
    fifoTail (o :: tl) ({ o with size := sz } :: tl) :=
  ⟨0, Or.inr ⟨o, tl, sz, rfl, rfl⟩⟩

theorem fifoTail_trans (a b c : List Order) (h1 : fifoTail a b)
    (h2 : fifoTail b c) : fifoTail a c := by
  obtain ⟨k, hk⟩ := h1
  obtain ⟨j, hj⟩ := h2
  rcases hk with hk | ⟨o, tl, sz, hdrop, hb⟩
  · subst hk
    rcases hj with hj | ⟨o, tl, sz, hdrop, hc⟩
    · refine ⟨k + j, Or.inl ?_⟩
      rw [hj, List.drop_drop]
    · refine ⟨k + j, Or.inr ⟨o, tl, sz, ?_, hc⟩⟩
      rw [← List.drop_drop]
      exact hdrop
  · subst hb
    cases j with
    | zero =>
      rcases hj with hj | ⟨o', tl', sz', hdrop', hc⟩
      · refine ⟨k, Or.inr ⟨o, tl, sz, hdrop, ?_⟩⟩
        rw [hj, List.drop_zero]
      · rw [List.drop_zero] at hdrop'
        injection hdrop' with h1 h2
        subst h2
        refine ⟨k, Or.inr ⟨o, tl, sz', hdrop, ?_⟩⟩
        rw [hc, ← h1]
    | succ j' =>
      have htl : tl = a.drop (k + 1) := by
        rw [← List.drop_drop, hdrop, List.drop_succ_cons, List.drop_zero]
      rcases hj with hj | ⟨o', tl', sz', hdrop', hc⟩
      · refine ⟨k + 1 + j', Or.inl ?_⟩
        rw [List.drop_succ_cons] at hj
        rw [hj, htl, List.drop_drop]
      · rw [List.drop_succ_cons] at hdrop'
        refine ⟨k + 1 + j', Or.inr ⟨o', tl', sz', ?_, hc⟩⟩
        rw [htl, List.drop_drop] at hdrop'
        exact hdrop'

theorem fifoTail_mem (old new : List Order) (h : fifoTail old new)
    (o' : Order) (hm : o' ∈ new) :
    ∃ o ∈ old, o'.id = o.id ∧ o'.price = o.price := by
  obtain ⟨k, hk⟩ := h
  rcases hk with hk | ⟨o, tl, sz, hdrop, hnew⟩
  · subst hk
    exact ⟨o', List.mem_of_mem_drop hm, rfl, rfl⟩
  · subst hnew
    rcases List.mem_cons.mp hm with hm | hm
    · subst hm
      refine ⟨o, ?_, rfl, rfl⟩
      have : o ∈ old.drop k := by rw [hdrop]; exact List.mem_cons_self _ _
      exact List.mem_of_mem_drop this
    · refine ⟨o', ?_, rfl, rfl⟩
      have : o' ∈ old.drop k := by rw [hdrop]; exact List.mem_cons_of_mem _ hm
      exact List.mem_of_mem_drop this

/-! ### Locating an order by id -/

theorem findOrderIdx_eq_none (blk : List Order) (oid : Nat)
    (h : ∀ o ∈ blk, o.id ≠ oid) : findOrderIdx blk oid = none := by
  induction blk with
  | nil => rfl
  | cons a l ih =>
    rw [findOrderIdx, if_neg (h a (List.mem_cons_self a l)),
      ih (fun o ho => h o (List.mem_cons_of_mem a ho))]
    rfl

theorem findOrderIdx_head (o : Order) (tl : List Order) :
    findOrderIdx (o :: tl) o.id = some 0 := by
  rw [findOrderIdx, if_pos rfl]

theorem findOrderIdx_append (blk : List Order) (o : Order)
    (h : ∀ x ∈ blk, x.id ≠ o.id) :
    findOrderIdx (blk ++ [o]) o.id = some blk.length := by
  induction blk with
  | nil => exact findOrderIdx_head o []
  | cons a l ih =>
    rw [List.cons_append, findOrderIdx, if_neg (h a (List.mem_cons_self a l)),
      ih (fun x hx => h x (List.mem_cons_of_mem a hx))]
    rfl

theorem eraseIdx_of_findOrderIdx (blk : List Order) (oid : Nat) (i : Nat)
    (hnd : (blk.map Order.id).Nodup)
    (h : findOrderIdx blk oid = some i) :
    blk.eraseIdx i = blk.filter (fun o => decide (¬ o.id = oid)) := by
  induction blk generalizing i with
  | nil => simp [findOrderIdx] at h
  | cons a l ih =>
    rw [List.map_cons, List.nodup_cons] at hnd
    rw [findOrderIdx] at h
    by_cases ha : a.id = oid
    · rw [if_pos ha] at h
      injection h with h
      subst h
      rw [List.eraseIdx_cons_zero, List.filter_cons]
      have : decide (¬ a.id = oid) = false := by simp [ha]
      rw [this]
      have hl : ∀ x ∈ l, x.id ≠ oid := by
        intro x hx he
        exact hnd.1 (by rw [← ha] at he; exact List.mem_map.mpr ⟨x, hx, he⟩)
      simp only [Bool.false_eq_true, if_false]
      rw [List.filter_eq_self.mpr]
      intro x hx
      simpa using hl x hx
    · rw [if_neg ha] at h
      rcases Option.map_eq_some'.mp h with ⟨i', hi', he⟩
      subst he
      rw [List.eraseIdx_cons_succ, List.filter_cons]
      have : decide (¬ a.id = oid) = true := by simp [ha]
      rw [this]
      simp only [if_true]
      rw [ih i' hnd.2 hi']

theorem mem_sideIds_iff (s : BookSide) (oid : Nat) :
    oid ∈ sideIds s ↔ ∃ l ∈ s, ∃ o ∈ l.2, o.id = oid := by
  constructor
  · intro h
    rcases List.mem_map.mp h with ⟨o, ho, hid⟩
    rcases List.mem_flatten.mp ho with ⟨b, hb, hob⟩
    rcases List.mem_map.mp hb with ⟨l, hl, he⟩
    exact ⟨l, hl, o, he ▸ hob, hid⟩
  · rintro ⟨l, hl, o, ho, hid⟩
    refine List.mem_map.mpr ⟨o, ?_, hid⟩
    exact List.mem_flatten.mpr ⟨l.2, List.mem_map.mpr ⟨l, hl, rfl⟩, ho⟩

theorem findOrder_none_of_not_mem (s : BookSide) (oid : Nat)
    (h : oid ∉ sideIds s) : findOrderInBookSide s oid = none := by
  induction s with
  | nil => rfl
  | cons hd tl ih =>
    obtain ⟨q, b⟩ := hd
    rw [sideIds_cons] at h
    have hb : ∀ o ∈ b, o.id ≠ oid := by
      intro o ho he
      exact h (List.mem_append.mpr (Or.inl (List.mem_map.mpr ⟨o, ho, he⟩)))
    show (match findOrderIdx b oid with
      | some i => some (q, i)
      | none => findOrderInBookSide tl oid) = none
    rw [findOrderIdx_eq_none b oid hb]
    exact ih (fun hc => h (List.mem_append.mpr (Or.inr hc)))

/-- With globally unique ids, the id sitting at the head of the first entry
holding key `bp` is found at `(bp, 0)`. -/
theorem findOrder_head (s : BookSide) (bp : ℚ) (o : Order) (tl : List Order)
    (hnd : (sideIds s).Nodup) (hlk : lookupLevel s bp = o :: tl) :
    findOrderInBookSide s o.id = some (bp, 0) := by
  induction s with
  | nil => simp [lookupLevel_nil] at hlk
  | cons hd tls ih =>
    obtain ⟨q, b⟩ := hd
    rw [sideIds_cons] at hnd
    rw [lookupLevel_cons] at hlk
    by_cases hq : q = bp
    · rw [if_pos hq] at hlk
      subst hlk
      show (match findOrderIdx (o :: tl) o.id with
        | some i => some (q, i)
        | none => findOrderInBookSide tls o.id) = some (bp, 0)
      rw [findOrderIdx_head, hq]
    · rw [if_neg hq] at hlk
      have hmem : o.id ∈ sideIds tls := by
        refine (mem_sideIds_iff tls o.id).mpr ?_
        have : bp ∈ tls.map Prod.fst :=
          mem_keys_of_lookupLevel_ne_nil tls bp (by rw [hlk]; simp)
        refine ⟨(bp, lookupLevel tls bp), lookupLevel_entry_mem tls bp this, o, ?_, rfl⟩
        rw [hlk]
        exact List.mem_cons_self _ _
      have hdisj := (List.nodup_append.mp hnd).2.2
      have hb : ∀ x ∈ b, x.id ≠ o.id := fun x hx he =>
        hdisj (List.mem_map.mpr ⟨x, hx, he⟩) hmem
      show (match findOrderIdx b o.id with
        | some i => some (q, i)
        | none => findOrderInBookSide tls o.id) = some (bp, 0)
      rw [findOrderIdx_eq_none b o.id hb]
      exact ih (List.nodup_append.mp hnd).2.1 hlk

/-! ### Well-formedness preservation for the level operations -/

theorem mem_setLevel (s : BookSide) (p : ℚ) (blk : List Order)
    (l : ℚ × List Order) (h : l ∈ setLevel s p blk) :
    l = (p, blk) ∨ l ∈ s := by
  induction s with
  | nil =>
    rcases List.mem_singleton.mp h with h
    exact Or.inl h
  | cons hd tl ih =>
    obtain ⟨q, b⟩ := hd
    rw [setLevel_cons] at h
    by_cases hq : q = p
    · rw [if_pos hq] at h
      rcases List.mem_cons.mp h with h | h
      · exact Or.inl h
      · exact Or.inr (List.mem_cons_of_mem _ h)
    · rw [if_neg hq] at h
      rcases List.mem_cons.mp h with h | h
      · exact Or.inr (h ▸ List.mem_cons_self _ _)
      · rcases ih h with h | h
        · exact Or.inl h
        · exact Or.inr (List.mem_cons_of_mem _ h)

theorem SideWF_of_sublist (s' s : BookSide) (hsub : s'.Sublist s)
    (hwf : SideWF s) : SideWF s' :=
  ⟨(hwf.1).sublist (hsub.map Prod.fst),
   (hwf.2.1).sublist (sideIds_sublist_of_entries s' s hsub),
   fun l hl => hwf.2.2 l (hsub.mem hl)⟩

theorem SideWF_eraseLevel (s : BookSide) (p : ℚ) (hwf : SideWF s) :
    SideWF (eraseLevel s p) :=
  SideWF_of_sublist _ s (eraseLevel_sublist s p) hwf

theorem SideWF_setLevel (s : BookSide) (p : ℚ) (blk' : List Order)
    (hwf : SideWF s) (hmem : p ∈ s.map Prod.fst) (hne : blk' ≠ [])
    (hprops : ∀ o ∈ blk', o.price = p ∧ 0 < o.size)
    (hsub : (blk'.map Order.id).Sublist ((lookupLevel s p).map Order.id)) :
    SideWF (setLevel s p blk') := by
  refine ⟨?_, ?_, ?_⟩
  · rw [keys_setLevel_of_mem s p blk' hmem]
    exact hwf.1
  · exact (hwf.2.1).sublist (sideIds_setLevel_sublist s p blk' hsub)
  · intro l hl
    rcases mem_setLevel s p blk' l hl with hl' | hl'
    · subst hl'
      rcases (SideWF_keys_pos s hwf p hmem) with ⟨hp1, hp2⟩
      exact ⟨hne, hp1, hp2, hprops⟩
    · exact hwf.2.2 l hl'

/-- After replacing the head of the best block in place, deleting the (unique)
head id reduces to dropping the head: the source's `DeleteAskOrder` /
`DeleteBidOrder` call inside the matching loop. -/
theorem delete_updated_head (s : BookSide) (bp : ℚ) (opp : Order)
    (rest : List Order) (sz : Int)
    (hnd : (sideIds s).Nodup)
    (hlk : lookupLevel s bp = opp :: rest) :
    (DeleteOrderFromSide (setLevel s bp ({ opp with size := sz } :: rest)) opp.id).2 =
      if rest = [] then eraseLevel s bp else setLevel s bp rest := by
  have hmem : bp ∈ s.map Prod.fst :=
    mem_keys_of_lookupLevel_ne_nil s bp (by rw [hlk]; simp)
  have hids : sideIds (setLevel s bp ({ opp with size := sz } :: rest)) = sideIds s := by
    refine sideIds_setLevel_eq s bp _ hmem ?_
    rw [hlk]
    rfl
  have hlk1 : lookupLevel (setLevel s bp ({ opp with size := sz } :: rest)) bp =
      { opp with size := sz } :: rest := lookupLevel_setLevel_self s bp _
  have hfind : findOrderInBookSide (setLevel s bp ({ opp with size := sz } :: rest))
      ({ opp with size := sz } : Order).id = some (bp, 0) :=
    findOrder_head _ bp _ rest (by rw [hids]; exact hnd) hlk1
  have hoid : ({ opp with size := sz } : Order).id = opp.id := rfl
  rw [hoid] at hfind
  rw [DeleteOrderFromSide, hfind]
  simp only [hlk1, List.eraseIdx_cons_zero]
  by_cases hrest : rest = []
  · rw [if_pos hrest, eraseLevel_setLevel, if_pos hrest]
  · rw [if_neg hrest, setLevel_setLevel, if_neg hrest]

/-! ### One-round characterization of the matching loop -/

/-- One emitted trade prepended to a loop result. -/
def mkStep (t : Trade) (r : LoopResult) : LoopResult :=
  ⟨r.side, r.store, r.remaining, t :: r.trades⟩

theorem matchLoop_zero (incoming : Order) (now : Nat) (canMatch : ℚ → ℚ → Bool)
    (best : BookSide → ℚ × List Order) (s : BookSide) (store : MemOrderStore)
    (remaining : Int) :
    matchLoop incoming now canMatch best 0 s store remaining =
      ⟨s, store, remaining, []⟩ := rfl

theorem matchLoop_nonpos (incoming : Order) (now : Nat) (canMatch : ℚ → ℚ → Bool)
    (best : BookSide → ℚ × List Order) (fuel : Nat) (s : BookSide)
    (store : MemOrderStore) (remaining : Int) (h : remaining ≤ 0) :
    matchLoop incoming now canMatch best fuel s store remaining =
      ⟨s, store, remaining, []⟩ := by
  cases fuel with
  | zero => rfl
  | succ fuel =>
    rw [matchLoop, if_pos h]

/-- Complete case analysis of one round of the matching loop. -/
theorem matchLoop_succ_char (incoming : Order) (now : Nat)
    (canMatch : ℚ → ℚ → Bool) (best : BookSide → ℚ × List Order) (fuel : Nat)
    (s : BookSide) (store : MemOrderStore) (remaining : Int) :
    (matchLoop incoming now canMatch best (fuel + 1) s store remaining =
        ⟨s, store, remaining, []⟩ ∧
      (remaining ≤ 0 ∨ (best s).2 = [] ∨
        canMatch incoming.price (best s).1 = false)) ∨
    ∃ opp rest fill,
      (best s).2 = opp :: rest ∧ ¬ remaining ≤ 0 ∧
      ¬ canMatch incoming.price (best s).1 = false ∧
      fill = (if opp.size < remaining then opp.size else remaining) ∧
      ((opp.size - fill = 0 ∧
        matchLoop incoming now canMatch best (fuel + 1) s store remaining =
          mkStep (createTrade incoming opp fill now)
            (matchLoop incoming now canMatch best fuel
              (DeleteOrderFromSide
                (setLevel s (best s).1 ({ opp with size := opp.size - fill } :: rest))
                opp.id).2
              (store.Remove opp.id) (remaining - fill))) ∨
       (¬ opp.size - fill = 0 ∧
        matchLoop incoming now canMatch best (fuel + 1) s store remaining =
          mkStep (createTrade incoming opp fill now)
            (matchLoop incoming now canMatch best fuel
              (setLevel s (best s).1 ({ opp with size := opp.size - fill } :: rest))
              store (remaining - fill)))) := by
  by_cases h0 : remaining ≤ 0
  · exact Or.inl ⟨matchLoop_nonpos _ _ _ _ _ _ _ _ h0, Or.inl h0⟩
  · rw [matchLoop, if_neg h0]
    cases hblk : (best s).2 with
    | nil => exact Or.inl ⟨rfl, Or.inr (Or.inl rfl)⟩
    | cons opp rest =>
      by_cases hcm : canMatch incoming.price (best s).1 = false
      · refine Or.inl ⟨?_, Or.inr (Or.inr hcm)⟩
        show (if canMatch incoming.price (best s).1 = false then
            (⟨s, store, remaining, []⟩ : LoopResult) else _) = _
        rw [if_pos hcm]
      · refine Or.inr ⟨opp, rest, _, rfl, h0, hcm, rfl, ?_⟩
        by_cases hz : opp.size - (if opp.size < remaining then opp.size else remaining) = 0
        · refine Or.inl ⟨hz, ?_⟩
          show (if canMatch incoming.price (best s).1 = false then
              (⟨s, store, remaining, []⟩ : LoopResult) else _) = _
          rw [if_neg hcm]
          show (if opp.size - (if opp.size < remaining then opp.size else remaining) = 0
              then _ else _) = _
          rw [if_pos hz]
          rfl
        · refine Or.inr ⟨hz, ?_⟩
          show (if canMatch incoming.price (best s).1 = false then
              (⟨s, store, remaining, []⟩ : LoopResult) else _) = _
          rw [if_neg hcm]
          show (if opp.size - (if opp.size < remaining then opp.size else remaining) = 0
              then _ else _) = _
          rw [if_neg hz]
          rfl

/-! ### Shrinking: matching never adds orders to the consumed side -/

/-- Every order of `s'` descends (same id, same price) from an order of `s`. -/
def shrinkSide (s' s : BookSide) : Prop :=
  ∀ o' ∈ sideOrders s', ∃ o ∈ sideOrders s, o'.id = o.id ∧ o'.price = o.price

theorem shrinkSide_refl (s : BookSide) : shrinkSide s s :=
  fun o' h => ⟨o', h, rfl, rfl⟩

theorem shrinkSide_trans (a b c : BookSide) (h1 : shrinkSide a b)
    (h2 : shrinkSide b c) : shrinkSide a c := by
  intro o' ho'
  obtain ⟨o, ho, hid, hp⟩ := h1 o' ho'
  obtain ⟨o2, ho2, hid2, hp2⟩ := h2 o ho
  exact ⟨o2, ho2, hid.trans hid2, hp.trans hp2⟩

theorem mem_sideOrders_of_entry (s : BookSide) (l : ℚ × List Order)
    (hl : l ∈ s) (o : Order) (ho : o ∈ l.2) : o ∈ sideOrders s :=
  List.mem_flatten.mpr ⟨l.2, List.mem_map.mpr ⟨l, hl, rfl⟩, ho⟩

theorem shrinkSide_of_sublist (s' s : BookSide) (h : s'.Sublist s) :
    shrinkSide s' s := by
  intro o' ho'
  rcases List.mem_flatten.mp ho' with ⟨b, hb, hob⟩
  rcases List.mem_map.mp hb with ⟨l, hl, he⟩
  exact ⟨o', mem_sideOrders_of_entry s l (h.mem hl) o' (he ▸ hob), rfl, rfl⟩

theorem shrinkSide_setLevel (s : BookSide) (p : ℚ) (blk' : List Order)
    (h : ∀ o' ∈ blk', ∃ o ∈ lookupLevel s p, o'.id = o.id ∧ o'.price = o.price)
    (hmem : p ∈ s.map Prod.fst) :
    shrinkSide (setLevel s p blk') s := by
  intro o' ho'
  rcases List.mem_flatten.mp ho' with ⟨b, hb, hob⟩
  rcases List.mem_map.mp hb with ⟨l, hl, he⟩
  rcases mem_setLevel s p blk' l hl with hl' | hl'
  · subst hl'
    have hob' : o' ∈ blk' := by
      rw [show blk' = b from he]
      exact hob
    rcases h o' hob' with ⟨o, ho, hid, hp⟩
    exact ⟨o, mem_sideOrders_of_entry s (p, lookupLevel s p)
      (lookupLevel_entry_mem s p hmem) o ho, hid, hp⟩
  · exact ⟨o', mem_sideOrders_of_entry s l hl' o' (he ▸ hob), rfl, rfl⟩

theorem shrinkSide_delete (s : BookSide) (oid : Nat) :
    shrinkSide (DeleteOrderFromSide s oid).2 s := by
  rw [DeleteOrderFromSide]
  cases hf : findOrderInBookSide s oid with
  | none => exact shrinkSide_refl s
  | some pi =>
    obtain ⟨p, i⟩ := pi
    show shrinkSide (if (lookupLevel s p).eraseIdx i = [] then
      (true, eraseLevel s p) else (true, setLevel s p ((lookupLevel s p).eraseIdx i))).2 s
    by_cases he : (lookupLevel s p).eraseIdx i = []
    · rw [if_pos he]
      exact shrinkSide_of_sublist _ s (eraseLevel_sublist s p)
    · rw [if_neg he]
      have hne : lookupLevel s p ≠ [] := by
        intro hc
        rw [hc] at he
        exact he rfl
      refine shrinkSide_setLevel s p _ ?_ (mem_keys_of_lookupLevel_ne_nil s p hne)
      intro o' ho'
      exact ⟨o', (List.eraseIdx_sublist _ i).mem ho', rfl, rfl⟩

/-- The matching loop only shrinks the consumed side, and every emitted trade
carries the resting order's price and the side-appropriate id assignment,
for some resting order of the initial side. -/
theorem matchLoop_shrink_trades (incoming : Order) (now : Nat)
    (canMatch : ℚ → ℚ → Bool) (best : BookSide → ℚ × List Order)
    (hb : best = GetBestBid ∨ best = GetBestAsk) :
    ∀ (fuel : Nat) (s : BookSide) (store : MemOrderStore) (remaining : Int),
      shrinkSide (matchLoop incoming now canMatch best fuel s store remaining).side s ∧
      ∀ t ∈ (matchLoop incoming now canMatch best fuel s store remaining).trades,
        ∃ o ∈ sideOrders s, t.price = o.price ∧
          (incoming.side = .buy → t.buyOrderId = incoming.id ∧ t.sellOrderId = o.id) ∧
          (¬ incoming.side = .buy → t.sellOrderId = incoming.id ∧ t.buyOrderId = o.id) := by
  intro fuel
  induction fuel with
  | zero =>
    intro s store remaining
    rw [matchLoop_zero]
    exact ⟨shrinkSide_refl s, fun t ht => absurd ht (List.not_mem_nil t)⟩
  | succ fuel ih =>
    intro s store remaining
    rcases matchLoop_succ_char incoming now canMatch best fuel s store remaining with
      ⟨heq, _⟩ | ⟨opp, rest, fill, hblk, _, _, _, hcase⟩
    · rw [heq]
      exact ⟨shrinkSide_refl s, fun t ht => absurd ht (List.not_mem_nil t)⟩
    · have hlk : lookupLevel s (best s).1 = opp :: rest := by
        rw [← best_eq_lookup best hb s, hblk]
      have hmem : (best s).1 ∈ s.map Prod.fst :=
        mem_keys_of_lookupLevel_ne_nil s _ (by rw [hlk]; simp)
      have hopp : opp ∈ sideOrders s :=
        mem_sideOrders_of_entry s ((best s).1, lookupLevel s (best s).1)
          (lookupLevel_entry_mem s _ hmem) opp (by rw [hlk]; exact List.mem_cons_self _ _)
      have hs1 : shrinkSide
          (setLevel s (best s).1 ({ opp with size := opp.size - fill } :: rest)) s := by
        refine shrinkSide_setLevel s _ _ ?_ hmem
        intro o' ho'
        rw [hlk]
        rcases List.mem_cons.mp ho' with ho' | ho'
        · exact ⟨opp, List.mem_cons_self _ _, by rw [ho'], by rw [ho']⟩
        · exact ⟨o', List.mem_cons_of_mem _ ho', rfl, rfl⟩
      have htr : ∀ (t : Trade), t = createTrade incoming opp fill now →
          t.price = opp.price ∧
          (incoming.side = .buy → t.buyOrderId = incoming.id ∧ t.sellOrderId = opp.id) ∧
          (¬ incoming.side = .buy → t.sellOrderId = incoming.id ∧ t.buyOrderId = opp.id) := by
        intro t ht
        subst ht
        rw [createTrade]
        by_cases hside : incoming.side = .buy
        · rw [if_pos hside]
          exact ⟨rfl, fun _ => ⟨rfl, rfl⟩, fun hc => absurd hside hc⟩
        · rw [if_neg hside]
          exact ⟨rfl, fun hc => absurd hc hside, fun _ => ⟨rfl, rfl⟩⟩
      rcases hcase with ⟨_, heq⟩ | ⟨_, heq⟩
      · rw [heq]
        set s2 := (DeleteOrderFromSide
          (setLevel s (best s).1 ({ opp with size := opp.size - fill } :: rest)) opp.id).2 with hs2def
        have hs2 : shrinkSide s2 s :=
          shrinkSide_trans s2 _ s (shrinkSide_delete _ opp.id) hs1
        obtain ⟨ihs, iht⟩ := ih s2 (store.Remove opp.id) (remaining - fill)
        constructor
        · exact shrinkSide_trans _ s2 s ihs hs2
        · intro t ht
          rcases List.mem_cons.mp ht with ht | ht
          · exact ⟨opp, hopp, htr t ht⟩
          · obtain ⟨o, ho, hp, h1, h2⟩ := iht t ht
            obtain ⟨o2, ho2, hid2, hp2⟩ := hs2 o ho
            refine ⟨o2, ho2, hp.trans hp2, ?_, ?_⟩
            · intro hbuy
              obtain ⟨ha, hb'⟩ := h1 hbuy
              exact ⟨ha, hb'.trans hid2⟩
            · intro hnbuy
              obtain ⟨ha, hb'⟩ := h2 hnbuy
              exact ⟨ha, hb'.trans hid2⟩
      · rw [heq]
        set s1 := setLevel s (best s).1 ({ opp with size := opp.size - fill } :: rest) with hs1def
        obtain ⟨ihs, iht⟩ := ih s1 store (remaining - fill)
        constructor
        · exact shrinkSide_trans _ s1 s ihs hs1
        · intro t ht
          rcases List.mem_cons.mp ht with ht | ht
          · exact ⟨opp, hopp, htr t ht⟩
          · obtain ⟨o, ho, hp, h1, h2⟩ := iht t ht
            obtain ⟨o2, ho2, hid2, hp2⟩ := hs1 o ho
            refine ⟨o2, ho2, hp.trans hp2, ?_, ?_⟩
            · intro hbuy
              obtain ⟨ha, hb'⟩ := h1 hbuy
              exact ⟨ha, hb'.trans hid2⟩
            · intro hnbuy
              obtain ⟨ha, hb'⟩ := h2 hnbuy
              exact ⟨ha, hb'.trans hid2⟩

/-! ### Facts about the two loop step shapes -/

theorem step_delete_facts (s : BookSide) (bp : ℚ) (opp : Order)
    (rest : List Order) (sz : Int) (hwf : SideWF s)
    (hlk : lookupLevel s bp = opp :: rest) :
    SideWF (DeleteOrderFromSide (setLevel s bp ({ opp with size := sz } :: rest)) opp.id).2 ∧
    (∀ k ∈ (DeleteOrderFromSide (setLevel s bp ({ opp with size := sz } :: rest)) opp.id).2.map Prod.fst,
      k ∈ s.map Prod.fst) ∧
    (∀ p, lookupLevel (DeleteOrderFromSide (setLevel s bp ({ opp with size := sz } :: rest)) opp.id).2 p =
      if p = bp then rest else lookupLevel s p) ∧
    countOrders (DeleteOrderFromSide (setLevel s bp ({ opp with size := sz } :: rest)) opp.id).2 + 1 =
      countOrders s := by
  have hmem : bp ∈ s.map Prod.fst :=
    mem_keys_of_lookupLevel_ne_nil s bp (by rw [hlk]; simp)
  have hentry := hwf.2.2 (bp, lookupLevel s bp) (lookupLevel_entry_mem s bp hmem)
  rw [delete_updated_head s bp opp rest sz hwf.2.1 hlk]
  by_cases hrest : rest = []
  · subst hrest
    rw [if_pos rfl]
    refine ⟨SideWF_eraseLevel s bp hwf, ?_, ?_, ?_⟩
    · intro k hk
      rw [keys_eraseLevel] at hk
      exact List.mem_of_mem_filter hk
    · intro p
      by_cases hp : p = bp
      · subst hp
        rw [if_pos rfl, lookupLevel_eraseLevel_self]
      · rw [if_neg hp, lookupLevel_eraseLevel_ne s bp p hp]
    · have := countOrders_eraseLevel s bp hwf.1
      rw [hlk] at this
      simpa using this
  · rw [if_neg hrest]
    have hsub : (rest.map Order.id).Sublist ((lookupLevel s bp).map Order.id) := by
      rw [hlk, List.map_cons]
      exact (List.Sublist.refl _).cons _
    refine ⟨?_, ?_, ?_, ?_⟩
    · refine SideWF_setLevel s bp rest hwf hmem hrest ?_ hsub
      intro o ho
      have := hentry.2.2.2 o (by rw [hlk]; exact List.mem_cons_of_mem _ ho)
      exact this
    · intro k hk
      rw [keys_setLevel_of_mem s bp rest hmem] at hk
      exact hk
    · intro p
      by_cases hp : p = bp
      · subst hp
        rw [if_pos rfl, lookupLevel_setLevel_self]
      · rw [if_neg hp, lookupLevel_setLevel_ne s bp p rest hp]
    · have := countOrders_setLevel s bp rest hmem
      rw [hlk] at this
      simp only [List.length_cons] at this
      omega

theorem step_keep_facts (s : BookSide) (bp : ℚ) (opp : Order)
    (rest : List Order) (sz : Int) (hwf : SideWF s)
    (hlk : lookupLevel s bp = opp :: rest) (hsz : 0 < sz) :
    SideWF (setLevel s bp ({ opp with size := sz } :: rest)) ∧
    (∀ k ∈ (setLevel s bp ({ opp with size := sz } :: rest)).map Prod.fst,
      k ∈ s.map Prod.fst) ∧
    (∀ p, lookupLevel (setLevel s bp ({ opp with size := sz } :: rest)) p =
      if p = bp then { opp with size := sz } :: rest else lookupLevel s p) ∧
    countOrders (setLevel s bp ({ opp with size := sz } :: rest)) = countOrders s := by
  have hmem : bp ∈ s.map Prod.fst :=
    mem_keys_of_lookupLevel_ne_nil s bp (by rw [hlk]; simp)
  have hentry := hwf.2.2 (bp, lookupLevel s bp) (lookupLevel_entry_mem s bp hmem)
  have hne : ({ opp with size := sz } :: rest : List Order) ≠ [] := by simp
  have hsub : ((({ opp with size := sz } : Order) :: rest).map Order.id).Sublist
      ((lookupLevel s bp).map Order.id) := by
    rw [hlk, List.map_cons, List.map_cons]
  refine ⟨?_, ?_, ?_, ?_⟩
  · refine SideWF_setLevel s bp _ hwf hmem hne ?_ hsub
    intro o ho
    rcases List.mem_cons.mp ho with ho | ho
    · subst ho
      have := hentry.2.2.2 opp (by rw [hlk]; exact List.mem_cons_self _ _)
      exact ⟨this.1, hsz⟩
    · exact hentry.2.2.2 o (by rw [hlk]; exact List.mem_cons_of_mem _ ho)
  · intro k hk
    rw [keys_setLevel_of_mem s bp _ hmem] at hk
    exact hk
  · intro p
    by_cases hp : p = bp
    · subst hp
      rw [if_pos rfl, lookupLevel_setLevel_self]
    · rw [if_neg hp, lookupLevel_setLevel_ne s bp p _ hp]
  · have := countOrders_setLevel s bp ({ opp with size := sz } :: rest) hmem
    rw [hlk] at this
    simp only [List.length_cons] at this
    omega

/-- In the keep branch the incoming order is exhausted: the fill equals the
whole remaining size. -/
theorem keep_branch_fill (opp : Order) (remaining fill : Int)
    (hfill : fill = (if opp.size < remaining then opp.size else remaining))
    (hz : ¬ opp.size - fill = 0) :
    fill = remaining ∧ 0 < opp.size - fill := by
  by_cases hlt : opp.size < remaining
  · rw [if_pos hlt] at hfill
    exact absurd (by omega : opp.size - fill = 0) hz
  · rw [if_neg hlt] at hfill
    constructor
    · exact hfill
    · omega

/-- The matching loop preserves side well-formedness, never adds price keys,
and transforms each level by head consumption only (strict FIFO). -/
theorem matchLoop_WF (incoming : Order) (now : Nat) (canMatch : ℚ → ℚ → Bool)
    (best : BookSide → ℚ × List Order)
    (hb : best = GetBestBid ∨ best = GetBestAsk) :
    ∀ (fuel : Nat) (s : BookSide) (store : MemOrderStore) (remaining : Int),
      SideWF s →
      SideWF (matchLoop incoming now canMatch best fuel s store remaining).side ∧
      (∀ k ∈ (matchLoop incoming now canMatch best fuel s store remaining).side.map Prod.fst,
        k ∈ s.map Prod.fst) ∧
      (∀ p, fifoTail (lookupLevel s p)
        (lookupLevel (matchLoop incoming now canMatch best fuel s store remaining).side p)) := by
  intro fuel
  induction fuel with
  | zero =>
    intro s store remaining hwf
    rw [matchLoop_zero]
    exact ⟨hwf, fun k hk => hk, fun p => fifoTail_refl _⟩
  | succ fuel ih =>
    intro s store remaining hwf
    rcases matchLoop_succ_char incoming now canMatch best fuel s store remaining with
      ⟨heq, _⟩ | ⟨opp, rest, fill, hblk, _, _, hfill, hcase⟩
    · rw [heq]
      exact ⟨hwf, fun k hk => hk, fun p => fifoTail_refl _⟩
    · have hlk : lookupLevel s (best s).1 = opp :: rest := by
        rw [← best_eq_lookup best hb s, hblk]
      rcases hcase with ⟨_, heq⟩ | ⟨hz, heq⟩
      · rw [heq]
        obtain ⟨hwf2, hkeys2, hlook2, _⟩ :=
          step_delete_facts s (best s).1 opp rest (opp.size - fill) hwf hlk
        obtain ⟨ihwf, ihkeys, ihfifo⟩ := ih _ (store.Remove opp.id) (remaining - fill) hwf2
        refine ⟨ihwf, ?_, ?_⟩
        · intro k hk
          exact hkeys2 k (ihkeys k hk)
        · intro p
          refine fifoTail_trans _ _ _ ?_ (ihfifo p)
          rw [hlook2 p]
          by_cases hp : p = (best s).1
          · subst hp
            rw [if_pos rfl, hlk]
            exact fifoTail_tail opp rest
          · rw [if_neg hp]
            exact fifoTail_refl _
      · rw [heq]
        obtain ⟨_, hsz⟩ := keep_branch_fill opp remaining fill hfill hz
        obtain ⟨hwf1, hkeys1, hlook1, _⟩ :=
          step_keep_facts s (best s).1 opp rest (opp.size - fill) hwf hlk hsz
        obtain ⟨ihwf, ihkeys, ihfifo⟩ := ih _ store (remaining - fill) hwf1
        refine ⟨ihwf, ?_, ?_⟩
        · intro k hk
          exact hkeys1 k (ihkeys k hk)
        · intro p
          refine fifoTail_trans _ _ _ ?_ (ihfifo p)
          rw [hlook1 p]
          by_cases hp : p = (best s).1
          · subst hp
            rw [if_pos rfl, hlk]
            exact fifoTail_head opp rest _
          · rw [if_neg hp]
            exact fifoTail_refl _

/-- With fuel exceeding the number of resting opposite orders, the loop runs
to a genuine exit: residual exhausted, opposite side empty, or price bound
reached. -/
theorem matchLoop_exit (incoming : Order) (now : Nat) (canMatch : ℚ → ℚ → Bool)
    (best : BookSide → ℚ × List Order)
    (hb : best = GetBestBid ∨ best = GetBestAsk) :
    ∀ (fuel : Nat) (s : BookSide) (store : MemOrderStore) (remaining : Int),
      SideWF s → countOrders s + 2 ≤ fuel →
      (matchLoop incoming now canMatch best fuel s store remaining).remaining ≤ 0 ∨
      (best (matchLoop incoming now canMatch best fuel s store remaining).side).2 = [] ∨
      canMatch incoming.price
        (best (matchLoop incoming now canMatch best fuel s store remaining).side).1 = false := by
  intro fuel
  induction fuel with
  | zero =>
    intro s store remaining _ hfuel
    omega
  | succ fuel ih =>
    intro s store remaining hwf hfuel
    rcases matchLoop_succ_char incoming now canMatch best fuel s store remaining with
      ⟨heq, hcond⟩ | ⟨opp, rest, fill, hblk, _, _, hfill, hcase⟩
    · rw [heq]
      exact hcond
    · have hlk : lookupLevel s (best s).1 = opp :: rest := by
        rw [← best_eq_lookup best hb s, hblk]
      rcases hcase with ⟨_, heq⟩ | ⟨hz, heq⟩
      · rw [heq]
        obtain ⟨hwf2, _, _, hcount2⟩ :=
          step_delete_facts s (best s).1 opp rest (opp.size - fill) hwf hlk
        exact ih _ (store.Remove opp.id) (remaining - fill) hwf2 (by omega)
      · rw [heq]
        obtain ⟨hfr, _⟩ := keep_branch_fill opp remaining fill hfill hz
        rw [matchLoop_nonpos incoming now canMatch best fuel _ store (remaining - fill)
          (by omega)]
        exact Or.inl (by simp [mkStep]; omega)

/-! ### Whole-book well-formedness and the uncrossed invariant -/

/-- Book well-formedness: both sides well-formed and no order id is resting
on both sides. -/
def BookWF (b : OrderBook) : Prop :=
  SideWF b.bids ∧ SideWF b.asks ∧ ∀ i ∈ sideIds b.bids, i ∉ sideIds b.asks

instance (b : OrderBook) : Decidable (BookWF b) := by
  unfold BookWF
  infer_instance

/-- The book is uncrossed: whenever both sides are non-empty, the best bid is
strictly below the best ask. -/
def Uncrossed (b : OrderBook) : Prop :=
  b.bids ≠ [] → b.asks ≠ [] → (GetBestBid b.bids).1 < (GetBestAsk b.asks).1

instance (b : OrderBook) : Decidable (Uncrossed b) := by
  unfold Uncrossed
  infer_instance

theorem sideIds_append (s s2 : BookSide) :
    sideIds (s ++ s2) = sideIds s ++ sideIds s2 := by
  simp [sideIds, sideOrders]

theorem sideIds_subset_of_shrink (s' s : BookSide) (h : shrinkSide s' s) :
    ∀ i ∈ sideIds s', i ∈ sideIds s := by
  intro i hi
  rcases List.mem_map.mp hi with ⟨o', ho', hid⟩
  obtain ⟨o, ho, hoid, _⟩ := h o' ho'
  exact List.mem_map.mpr ⟨o, ho, by rw [← hoid, hid]⟩

theorem keys_setLevel_subset (s : BookSide) (p : ℚ) (blk : List Order)
    (k : ℚ) (hk : k ∈ (setLevel s p blk).map Prod.fst) :
    k ∈ s.map Prod.fst ∨ k = p := by
  rcases List.mem_map.mp hk with ⟨l, hl, he⟩
  rcases mem_setLevel s p blk l hl with hl' | hl'
  · subst hl'
    exact Or.inr he.symm
  · exact Or.inl (List.mem_map.mpr ⟨l, hl', he⟩)

theorem setLevel_ne_nil (s : BookSide) (p : ℚ) (blk : List Order) :
    setLevel s p blk ≠ [] := by
  cases s with
  | nil => simp [setLevel]
  | cons hd tl =>
    obtain ⟨q, b⟩ := hd
    rw [setLevel_cons]
    by_cases h : q = p
    · simp [h]
    · simp [h]

/-- Appending a fresh order keeps the flattened ids a permutation of the old
ids plus the new id. -/
theorem sideIds_addOrder_perm (s : BookSide) (p : ℚ) (o : Order) :
    (sideIds (setLevel s p (lookupLevel s p ++ [o]))).Perm (sideIds s ++ [o.id]) := by
  induction s with
  | nil =>
    rw [lookupLevel_nil]
    exact List.Perm.refl _
  | cons hd tl ih =>
    obtain ⟨q, b⟩ := hd
    rw [lookupLevel_cons, setLevel_cons]
    by_cases hq : q = p
    · simp only [if_pos hq]
      rw [sideIds_cons, sideIds_cons, List.map_append]
      have h1 : (b.map Order.id ++ [o].map Order.id) ++ sideIds tl =
          b.map Order.id ++ ([o].map Order.id ++ sideIds tl) := by
        rw [List.append_assoc]
      have h2 : (b.map Order.id ++ sideIds tl) ++ [o.id] =
          b.map Order.id ++ (sideIds tl ++ [o.id]) := by
        rw [List.append_assoc]
      rw [h1, h2]
      exact List.Perm.append_left _ List.perm_append_comm
    · simp only [if_neg hq]
      rw [sideIds_cons, sideIds_cons]
      have h2 : (b.map Order.id ++ sideIds tl) ++ [o.id] =
          b.map Order.id ++ (sideIds tl ++ [o.id]) := by
        rw [List.append_assoc]
      rw [h2]
      exact List.Perm.append_left _ ih

theorem lookupLevel_eq_nil_of_not_mem (s : BookSide) (p : ℚ)
    (h : p ∉ s.map Prod.fst) : lookupLevel s p = [] := by
  by_contra hc
  exact h (mem_keys_of_lookupLevel_ne_nil s p hc)

/-- Adding a fresh valid order at its own price preserves side
well-formedness. -/
theorem SideWF_addOrder (s : BookSide) (o : Order) (hwf : SideWF s)
    (hp0 : 0 < o.price) (hpm : o.price ≤ maxFloat) (hsz : 0 < o.size)
    (hid : o.id ∉ sideIds s) :
    SideWF (setLevel s o.price (lookupLevel s o.price ++ [o])) := by
  refine ⟨?_, ?_, ?_⟩
  · by_cases hmem : o.price ∈ s.map Prod.fst
    · rw [keys_setLevel_of_mem s o.price _ hmem]
      exact hwf.1
    · rw [setLevel_of_not_mem s o.price _ hmem,
        lookupLevel_eq_nil_of_not_mem s o.price hmem]
      simp only [List.nil_append, List.map_append, List.map_cons, List.map_nil]
      rw [List.nodup_append]
      refine ⟨hwf.1, List.nodup_singleton _, ?_⟩
      intro k hk hk2
      rcases List.mem_singleton.mp hk2 with h
      exact hmem (h ▸ hk)
  · have hperm := sideIds_addOrder_perm s o.price o
    refine hperm.nodup_iff.mpr ?_
    rw [List.nodup_append]
    exact ⟨hwf.2.1, List.nodup_singleton _,
      fun i hi hi2 => hid ((List.mem_singleton.mp hi2) ▸ hi)⟩
  · intro l hl
    rcases mem_setLevel s o.price _ l hl with hl' | hl'
    · subst hl'
      refine ⟨by simp, hp0, hpm, ?_⟩
      intro x hx
      rcases List.mem_append.mp hx with hx | hx
      · have hmem : o.price ∈ s.map Prod.fst :=
          mem_keys_of_lookupLevel_ne_nil s o.price
            (by intro hc; rw [hc] at hx; exact absurd hx (List.not_mem_nil x))
        exact (hwf.2.2 (o.price, lookupLevel s o.price)
          (lookupLevel_entry_mem s o.price hmem)).2.2.2 x hx
      · rcases List.mem_singleton.mp hx with h
        subst h
        exact ⟨rfl, hsz⟩
    · exact hwf.2.2 l hl'

theorem findOrder_some_key (s : BookSide) (oid : Nat) (p : ℚ) (i : Nat)
    (h : findOrderInBookSide s oid = some (p, i)) : p ∈ s.map Prod.fst := by
  induction s with
  | nil => simp [findOrderInBookSide] at h
  | cons hd tl ih =>
    obtain ⟨q, b⟩ := hd
    rw [show findOrderInBookSide ((q, b) :: tl) oid =
      (match findOrderIdx b oid with
        | some i => some (q, i)
        | none => findOrderInBookSide tl oid) from rfl] at h
    cases hf : findOrderIdx b oid with
    | some j =>
      rw [hf] at h
      injection h with h
      have hq : q = p := congrArg Prod.fst h
      exact List.mem_cons.mpr (Or.inl hq.symm)
    | none =>
      rw [hf] at h
      exact List.mem_cons_of_mem _ (ih h)

/-- General deletion preserves side well-formedness and never adds keys. -/
theorem DeleteOrderFromSide_WF (s : BookSide) (oid : Nat) (hwf : SideWF s) :
    SideWF (DeleteOrderFromSide s oid).2 ∧
    (∀ k ∈ (DeleteOrderFromSide s oid).2.map Prod.fst, k ∈ s.map Prod.fst) := by
  cases hf : findOrderInBookSide s oid with
  | none =>
    have hshape : (DeleteOrderFromSide s oid).2 = s := by
      rw [DeleteOrderFromSide, hf]
    rw [hshape]
    exact ⟨hwf, fun k hk => hk⟩
  | some pi =>
    obtain ⟨p, i⟩ := pi
    have hmem : p ∈ s.map Prod.fst := findOrder_some_key s oid p i hf
    have hentry := hwf.2.2 (p, lookupLevel s p) (lookupLevel_entry_mem s p hmem)
    have hshape : (DeleteOrderFromSide s oid).2 =
        if (lookupLevel s p).eraseIdx i = [] then eraseLevel s p
        else setLevel s p ((lookupLevel s p).eraseIdx i) := by
      rw [DeleteOrderFromSide, hf]
      show (if (lookupLevel s p).eraseIdx i = [] then (true, eraseLevel s p)
        else (true, setLevel s p ((lookupLevel s p).eraseIdx i))).2 = _
      by_cases he : (lookupLevel s p).eraseIdx i = []
      · rw [if_pos he, if_pos he]
      · rw [if_neg he, if_neg he]
    rw [hshape]
    by_cases he : (lookupLevel s p).eraseIdx i = []
    · rw [if_pos he]
      refine ⟨SideWF_eraseLevel s p hwf, ?_⟩
      intro k hk
      rw [keys_eraseLevel] at hk
      exact List.mem_of_mem_filter hk
    · rw [if_neg he]
      refine ⟨?_, ?_⟩
      · refine SideWF_setLevel s p _ hwf hmem he ?_
          ((List.eraseIdx_sublist _ i).map Order.id)
        intro x hx
        exact hentry.2.2.2 x ((List.eraseIdx_sublist _ i).mem hx)
      · intro k hk
        rw [keys_setLevel_of_mem s p _ hmem] at hk
        exact hk

/-! ### Best-price monotonicity under key-set shrinking -/

theorem bestAsk_mono (s' s : BookSide) (hwf' : SideWF s') (hwf : SideWF s)
    (hne' : s' ≠ []) (hkeys : ∀ k ∈ s'.map Prod.fst, k ∈ s.map Prod.fst) :
    (GetBestAsk s).1 ≤ (GetBestAsk s').1 := by
  have hne : s ≠ [] := by
    obtain ⟨l, hl⟩ := List.exists_mem_of_ne_nil s' hne'
    have := hkeys l.1 (List.mem_map.mpr ⟨l, hl, rfl⟩)
    intro hc
    rw [hc] at this
    simp at this
  obtain ⟨hmem', _, _, _⟩ := GetBestAsk_spec s' hwf' hne'
  obtain ⟨_, hlb, _, _⟩ := GetBestAsk_spec s hwf hne
  exact hlb _ (hkeys _ hmem')

theorem bestBid_mono (s' s : BookSide) (hwf' : SideWF s') (hwf : SideWF s)
    (hne' : s' ≠ []) (hkeys : ∀ k ∈ s'.map Prod.fst, k ∈ s.map Prod.fst) :
    (GetBestBid s').1 ≤ (GetBestBid s).1 := by
  have hne : s ≠ [] := by
    obtain ⟨l, hl⟩ := List.exists_mem_of_ne_nil s' hne'
    have := hkeys l.1 (List.mem_map.mpr ⟨l, hl, rfl⟩)
    intro hc
    rw [hc] at this
    simp at this
  obtain ⟨hmem', _, _, _⟩ := GetBestBid_spec s' hwf' hne'
  obtain ⟨_, hub, _, _⟩ := GetBestBid_spec s hwf hne
  exact hub _ (hkeys _ hmem')

/-! ### Preservation of the book invariants by the engine operations -/

theorem side_ne_nil_of_keys (s' s : BookSide) (hne' : s' ≠ [])
    (hkeys : ∀ k ∈ s'.map Prod.fst, k ∈ s.map Prod.fst) : s ≠ [] := by
  obtain ⟨l, hl⟩ := List.exists_mem_of_ne_nil s' hne'
  have := hkeys l.1 (List.mem_map.mpr ⟨l, hl, rfl⟩)
  intro hc
  rw [hc] at this
  simp at this

/-- A market order's execution preserves book well-formedness and the
uncrossed invariant: it only consumes resting orders. -/
theorem market_book_preserves (st : EngineState) (o : Order) (now : Nat)
    (hwf : BookWF st.orderBook) (hunc : Uncrossed st.orderBook) :
    BookWF (executeMarketOrder st o now).2.orderBook ∧
    Uncrossed (executeMarketOrder st o now).2.orderBook := by
  by_cases hside : o.side = .buy
  · simp only [executeMarketOrder, if_pos hside]
    obtain ⟨hwfr, hkeysr, _⟩ := matchLoop_WF o now (fun _ _ => true) GetBestAsk
      (Or.inr rfl) (countOrders st.orderBook.asks + 2) st.orderBook.asks
      st.orderStore o.size hwf.2.1
    have hidsr := sideIds_subset_of_shrink _ _
      (matchLoop_shrink_trades o now (fun _ _ => true) GetBestAsk (Or.inr rfl)
        (countOrders st.orderBook.asks + 2) st.orderBook.asks st.orderStore o.size).1
    refine ⟨⟨hwf.1, hwfr, ?_⟩, ?_⟩
    · intro i hi hir
      exact hwf.2.2 i hi (hidsr i hir)
    · intro hbne hane
      have haneA : st.orderBook.asks ≠ [] := side_ne_nil_of_keys _ _ hane hkeysr
      exact lt_of_lt_of_le (hunc hbne haneA)
        (bestAsk_mono _ _ hwfr hwf.2.1 hane hkeysr)
  · simp only [executeMarketOrder, if_neg hside]
    obtain ⟨hwfr, hkeysr, _⟩ := matchLoop_WF o now (fun _ _ => true) GetBestBid
      (Or.inl rfl) (countOrders st.orderBook.bids + 2) st.orderBook.bids
      st.orderStore o.size hwf.1
    have hidsr := sideIds_subset_of_shrink _ _
      (matchLoop_shrink_trades o now (fun _ _ => true) GetBestBid (Or.inl rfl)
        (countOrders st.orderBook.bids + 2) st.orderBook.bids st.orderStore o.size).1
    refine ⟨⟨hwfr, hwf.2.1, ?_⟩, ?_⟩
    · intro i hi hir
      exact hwf.2.2 i (hidsr i hi) hir
    · intro hbne hane
      have hbneB : st.orderBook.bids ≠ [] := side_ne_nil_of_keys _ _ hbne hkeysr
      exact lt_of_le_of_lt (bestBid_mono _ _ hwfr hwf.1 hbne hkeysr)
        (hunc hbneB hane)

theorem CancelOrder_book (st : EngineState) (oid : Nat) :
    (CancelOrder st oid).2.orderBook = (DeleteOrderById st.orderBook oid).2 := by
  rw [CancelOrder]
  by_cases h : (DeleteOrderById st.orderBook oid).1
  · rw [if_pos h]
    rfl
  · rw [if_neg h]

/-- Cancellation preserves book well-formedness and the uncrossed
invariant. -/
theorem cancel_book_preserves (st : EngineState) (oid : Nat)
    (hwf : BookWF st.orderBook) (hunc : Uncrossed st.orderBook) :
    BookWF (CancelOrder st oid).2.orderBook ∧
    Uncrossed (CancelOrder st oid).2.orderBook := by
  rw [CancelOrder_book]
  have hbids := DeleteOrderFromSide_WF st.orderBook.bids oid hwf.1
  have hasks := DeleteOrderFromSide_WF st.orderBook.asks oid hwf.2.1
  have hidsb := sideIds_subset_of_shrink _ _ (shrinkSide_delete st.orderBook.bids oid)
  have hidsa := sideIds_subset_of_shrink _ _ (shrinkSide_delete st.orderBook.asks oid)
  have hmain : ∀ asks' : BookSide, (asks' = st.orderBook.asks ∨
      asks' = (DeleteOrderFromSide st.orderBook.asks oid).2) →
      BookWF ⟨(DeleteOrderFromSide st.orderBook.bids oid).2, asks'⟩ ∧
      Uncrossed ⟨(DeleteOrderFromSide st.orderBook.bids oid).2, asks'⟩ := by
    intro asks' hasks'
    have hwfa : SideWF asks' := by
      rcases hasks' with h | h
      · rw [h]; exact hwf.2.1
      · rw [h]; exact hasks.1
    have hkeysa : ∀ k ∈ asks'.map Prod.fst, k ∈ st.orderBook.asks.map Prod.fst := by
      rcases hasks' with h | h
      · rw [h]; exact fun k hk => hk
      · rw [h]; exact hasks.2
    have hidsa' : ∀ i ∈ sideIds asks', i ∈ sideIds st.orderBook.asks := by
      rcases hasks' with h | h
      · rw [h]; exact fun i hi => hi
      · rw [h]; exact hidsa
    refine ⟨⟨hbids.1, hwfa, ?_⟩, ?_⟩
    · intro i hi hia
      exact hwf.2.2 i (hidsb i hi) (hidsa' i hia)
    · intro hbne hane
      have hbneB : st.orderBook.bids ≠ [] := side_ne_nil_of_keys _ _ hbne hbids.2
      have haneA : st.orderBook.asks ≠ [] := side_ne_nil_of_keys _ _ hane hkeysa
      calc (GetBestBid (DeleteOrderFromSide st.orderBook.bids oid).2).1
          ≤ (GetBestBid st.orderBook.bids).1 :=
            bestBid_mono _ _ hbids.1 hwf.1 hbne hbids.2
        _ < (GetBestAsk st.orderBook.asks).1 := hunc hbneB haneA
        _ ≤ (GetBestAsk asks').1 := bestAsk_mono _ _ hwfa hwf.2.1 hane hkeysa
  rw [DeleteOrderById]
  by_cases h : (DeleteBidOrder st.orderBook oid).1
  · rw [if_pos h]
    exact hmain st.orderBook.asks (Or.inl rfl)
  · rw [if_neg h]
    exact hmain (DeleteOrderFromSide st.orderBook.asks oid).2 (Or.inr rfl)

theorem side_ne_nil_of_mem_keys (s : BookSide) (k : ℚ)
    (h : k ∈ s.map Prod.fst) : s ≠ [] := by
  intro hc
  rw [hc] at h
  simp at h

/-- Resting a non-crossing residual on the bid side keeps the book
uncrossed. -/
theorem rest_buy_uncrossed (B A A' : BookSide) (o : Order) (sz : Int)
    (hwfB : SideWF B) (hwfA : SideWF A) (hwfA' : SideWF A')
    (hkeys : ∀ k ∈ A'.map Prod.fst, k ∈ A.map Prod.fst)
    (hunc : B ≠ [] → A ≠ [] → (GetBestBid B).1 < (GetBestAsk A).1)
    (hp0 : 0 < o.price) (hpm : o.price ≤ maxFloat) (hsz : 0 < sz)
    (hidsB : o.id ∉ sideIds B)
    (hcross : A' ≠ [] → o.price < (GetBestAsk A').1) :
    SideWF (setLevel B o.price (lookupLevel B o.price ++ [{ o with size := sz }])) ∧
    (∀ i ∈ sideIds (setLevel B o.price (lookupLevel B o.price ++ [{ o with size := sz }])),
      i ∈ sideIds B ∨ i = o.id) ∧
    (A' ≠ [] →
      (GetBestBid (setLevel B o.price (lookupLevel B o.price ++ [{ o with size := sz }]))).1 <
        (GetBestAsk A').1) := by
  have hwf' : SideWF (setLevel B o.price (lookupLevel B o.price ++ [{ o with size := sz }])) :=
    SideWF_addOrder B { o with size := sz } hwfB hp0 hpm hsz hidsB
  refine ⟨hwf', ?_, ?_⟩
  · intro i hi
    have := (sideIds_addOrder_perm B o.price { o with size := sz }).mem_iff.mp hi
    rcases List.mem_append.mp this with h | h
    · exact Or.inl h
    · exact Or.inr (List.mem_singleton.mp h)
  · intro hane
    obtain ⟨hmem', hub', _, _⟩ := GetBestBid_spec _ hwf' (setLevel_ne_nil _ _ _)
    rcases keys_setLevel_subset B o.price _ _ hmem' with hk | hk
    · have hBne : B ≠ [] := side_ne_nil_of_mem_keys B _ hk
      have hAne : A ≠ [] := side_ne_nil_of_keys A' A hane hkeys
      obtain ⟨_, hubB, _, _⟩ := GetBestBid_spec B hwfB hBne
      calc (GetBestBid (setLevel B o.price (lookupLevel B o.price ++ [{ o with size := sz }]))).1
          ≤ (GetBestBid B).1 := hubB _ hk
        _ < (GetBestAsk A).1 := hunc hBne hAne
        _ ≤ (GetBestAsk A').1 := bestAsk_mono A' A hwfA' hwfA hane hkeys
    · rw [hk]
      exact hcross hane

/-- Resting a non-crossing residual on the ask side keeps the book
uncrossed. -/
theorem rest_sell_uncrossed (B B' A : BookSide) (o : Order) (sz : Int)
    (hwfB : SideWF B) (hwfB' : SideWF B') (hwfA : SideWF A)
    (hkeys : ∀ k ∈ B'.map Prod.fst, k ∈ B.map Prod.fst)
    (hunc : B ≠ [] → A ≠ [] → (GetBestBid B).1 < (GetBestAsk A).1)
    (hp0 : 0 < o.price) (hpm : o.price ≤ maxFloat) (hsz : 0 < sz)
    (hidsA : o.id ∉ sideIds A)
    (hcross : B' ≠ [] → (GetBestBid B').1 < o.price) :
    SideWF (setLevel A o.price (lookupLevel A o.price ++ [{ o with size := sz }])) ∧
    (∀ i ∈ sideIds (setLevel A o.price (lookupLevel A o.price ++ [{ o with size := sz }])),
      i ∈ sideIds A ∨ i = o.id) ∧
    (B' ≠ [] →
      (GetBestBid B').1 <
        (GetBestAsk (setLevel A o.price (lookupLevel A o.price ++ [{ o with size := sz }]))).1) := by
  have hwf' : SideWF (setLevel A o.price (lookupLevel A o.price ++ [{ o with size := sz }])) :=
    SideWF_addOrder A { o with size := sz } hwfA hp0 hpm hsz hidsA
  refine ⟨hwf', ?_, ?_⟩
  · intro i hi
    have := (sideIds_addOrder_perm A o.price { o with size := sz }).mem_iff.mp hi
    rcases List.mem_append.mp this with h | h
    · exact Or.inl h
    · exact Or.inr (List.mem_singleton.mp h)
  · intro hbne
    obtain ⟨hmem', _, _, _⟩ := GetBestAsk_spec _ hwf' (setLevel_ne_nil _ _ _)
    rcases keys_setLevel_subset A o.price _ _ hmem' with hk | hk
    · have hAne : A ≠ [] := side_ne_nil_of_mem_keys A _ hk
      have hBne : B ≠ [] := side_ne_nil_of_keys B' B hbne hkeys
      obtain ⟨_, hlbA, _, _⟩ := GetBestAsk_spec A hwfA hAne
      calc (GetBestBid B').1
          ≤ (GetBestBid B).1 := bestBid_mono B' B hwfB' hwfB hbne hkeys
        _ < (GetBestAsk A).1 := hunc hBne hAne
        _ ≤ (GetBestAsk (setLevel A o.price (lookupLevel A o.price ++ [{ o with size := sz }]))).1 :=
            hlbA _ hk
    · rw [hk]
      exact hcross hbne

/-- A limit order's execution preserves book well-formedness and the
uncrossed invariant. -/
theorem limit_book_preserves (st : EngineState) (o : Order) (now : Nat)
    (hwf : BookWF st.orderBook) (hunc : Uncrossed st.orderBook)
    (hp0 : 0 < o.price) (hpm : o.price ≤ maxFloat)
    (hfresh1 : o.id ∉ sideIds st.orderBook.bids)
    (hfresh2 : o.id ∉ sideIds st.orderBook.asks) :
    BookWF (executeLimitOrder st o now).2.orderBook ∧
    Uncrossed (executeLimitOrder st o now).2.orderBook := by
  by_cases hside : o.side = .buy
  · simp only [executeLimitOrder, if_pos hside]
    obtain ⟨hwfr, hkeysr, _⟩ := matchLoop_WF o now
      (fun limitPrice bestPrice => decide (bestPrice ≤ limitPrice)) GetBestAsk
      (Or.inr rfl) (countOrders st.orderBook.asks + 2) st.orderBook.asks
      st.orderStore o.size hwf.2.1
    have hexit := matchLoop_exit o now
      (fun limitPrice bestPrice => decide (bestPrice ≤ limitPrice)) GetBestAsk
      (Or.inr rfl) (countOrders st.orderBook.asks + 2) st.orderBook.asks
      st.orderStore o.size hwf.2.1 (le_refl _)
    have hidsr := sideIds_subset_of_shrink _ _
      (matchLoop_shrink_trades o now
        (fun limitPrice bestPrice => decide (bestPrice ≤ limitPrice)) GetBestAsk
        (Or.inr rfl) (countOrders st.orderBook.asks + 2) st.orderBook.asks
        st.orderStore o.size).1
    set r := matchLoop o now
      (fun limitPrice bestPrice => decide (bestPrice ≤ limitPrice)) GetBestAsk
      (countOrders st.orderBook.asks + 2) st.orderBook.asks st.orderStore o.size with hr
    by_cases hrem : 0 < r.remaining
    · rw [if_pos hrem]
      have hcross : r.side ≠ [] → o.price < (GetBestAsk r.side).1 := by
        intro hane
        rcases hexit with h | h | h
        · omega
        · obtain ⟨_, _, _, hne2⟩ := GetBestAsk_spec r.side hwfr hane
          exact absurd h hne2
        · exact not_le.mp (of_decide_eq_false h)
      obtain ⟨hwfb', hids', huncf⟩ := rest_buy_uncrossed st.orderBook.bids
        st.orderBook.asks r.side o r.remaining hwf.1 hwf.2.1 hwfr hkeysr hunc
        hp0 hpm hrem hfresh1 hcross
      refine ⟨⟨hwfb', hwfr, ?_⟩, ?_⟩
      · intro i hi hir
        rcases hids' i hi with h | h
        · exact hwf.2.2 i h (hidsr i hir)
        · subst h
          exact hfresh2 (hidsr o.id hir)
      · intro _ hane
        exact huncf hane
    · rw [if_neg hrem]
      refine ⟨⟨hwf.1, hwfr, ?_⟩, ?_⟩
      · intro i hi hir
        exact hwf.2.2 i hi (hidsr i hir)
      · intro hbne hane
        have haneA : st.orderBook.asks ≠ [] := side_ne_nil_of_keys _ _ hane hkeysr
        exact lt_of_lt_of_le (hunc hbne haneA)
          (bestAsk_mono _ _ hwfr hwf.2.1 hane hkeysr)
  · simp only [executeLimitOrder, if_neg hside]
    obtain ⟨hwfr, hkeysr, _⟩ := matchLoop_WF o now
      (fun limitPrice bestPrice => decide (limitPrice ≤ bestPrice)) GetBestBid
      (Or.inl rfl) (countOrders st.orderBook.bids + 2) st.orderBook.bids
      st.orderStore o.size hwf.1
    have hexit := matchLoop_exit o now
      (fun limitPrice bestPrice => decide (limitPrice ≤ bestPrice)) GetBestBid
      (Or.inl rfl) (countOrders st.orderBook.bids + 2) st.orderBook.bids
      st.orderStore o.size hwf.1 (le_refl _)
    have hidsr := sideIds_subset_of_shrink _ _
      (matchLoop_shrink_trades o now
        (fun limitPrice bestPrice => decide (limitPrice ≤ bestPrice)) GetBestBid
        (Or.inl rfl) (countOrders st.orderBook.bids + 2) st.orderBook.bids
        st.orderStore o.size).1
    set r := matchLoop o now
      (fun limitPrice bestPrice => decide (limitPrice ≤ bestPrice)) GetBestBid
      (countOrders st.orderBook.bids + 2) st.orderBook.bids st.orderStore o.size with hr
    by_cases hrem : 0 < r.remaining
    · rw [if_pos hrem]
      have hcross : r.side ≠ [] → (GetBestBid r.side).1 < o.price := by
        intro hbne
        rcases hexit with h | h | h
        · omega
        · obtain ⟨_, _, _, hne2⟩ := GetBestBid_spec r.side hwfr hbne
          exact absurd h hne2
        · exact not_le.mp (of_decide_eq_false h)
      obtain ⟨hwfa', hids', huncf⟩ := rest_sell_uncrossed st.orderBook.bids
        r.side st.orderBook.asks o r.remaining hwf.1 hwfr hwf.2.1 hkeysr hunc
        hp0 hpm hrem hfresh2 hcross
      refine ⟨⟨hwfr, hwfa', ?_⟩, ?_⟩
      · intro i hir hia
        rcases hids' i hia with h | h
        · exact hwf.2.2 i (hidsr i hir) h
        · subst h
          exact hfresh1 (hidsr o.id hir)
      · intro hbne _
        exact huncf hbne
    · rw [if_neg hrem]
      refine ⟨⟨hwfr, hwf.2.1, ?_⟩, ?_⟩
      · intro i hi hia
        exact hwf.2.2 i (hidsr i hi) hia
      · intro hbne hane
        have hbneB : st.orderBook.bids ≠ [] := side_ne_nil_of_keys _ _ hbne hkeysr
        exact lt_of_le_of_lt (bestBid_mono _ _ hwfr hwf.1 hbne hkeysr)
          (hunc hbneB hane)

/-- Unpacking of the source's validity predicate. -/
theorem IsValid_facts (o : Order) (h : o.IsValid = true) :
    o.orderType ≠ .noActionOrder ∧ o.side ≠ .noActionSide ∧ 0 < o.size ∧
    (o.orderType = .limitOrder → 0 < o.price) := by
  rw [Order.IsValid] at h
  by_cases h1 : o.orderType = OrderType.noActionOrder ∨ o.side = SideType.noActionSide
  · rw [if_pos h1] at h
    exact absurd h (by simp)
  · rw [if_neg h1] at h
    by_cases h2 : o.size ≤ 0
    · rw [if_pos h2] at h
      exact absurd h (by simp)
    · rw [if_neg h2] at h
      by_cases h3 : o.orderType = OrderType.limitOrder ∧ o.price ≤ 0
      · rw [if_pos h3] at h
        exact absurd h (by simp)
      · push_neg at h1 h3
        exact ⟨h1.1, h1.2, by omega, fun hty => h3 hty⟩

theorem foldl_history_book (ts : List Trade) (st : EngineState) :
    (ts.foldl AddTradeToHistory st).orderBook = st.orderBook := by
  induction ts generalizing st with
  | nil => rfl
  | cons t ts ih =>
    rw [List.foldl_cons, ih]
    rfl

theorem foldl_history_store (ts : List Trade) (st : EngineState) :
    (ts.foldl AddTradeToHistory st).orderStore = st.orderStore := by
  induction ts generalizing st with
  | nil => rfl
  | cons t ts ih =>
    rw [List.foldl_cons, ih]
    rfl

/-- The book that `PlaceOrder` leaves behind, by order kind. -/
theorem PlaceOrder_book (st : EngineState) (o : Order) (now : Nat) :
    (PlaceOrder st o now).2.orderBook =
      (match o.orderType with
      | .marketOrder => (executeMarketOrder (TrackOrder st o) o now).2.orderBook
      | .limitOrder => (executeLimitOrder (TrackOrder st o) o now).2.orderBook
      | .cancelOrder => (CancelOrder st o.id).2.orderBook
      | _ => st.orderBook) := by
  cases hty : o.orderType <;>
    simp only [PlaceOrder, hty, foldl_history_book, if_neg, if_pos] <;>
    first
      | rfl
      | (rw [if_neg (by simp : ¬ OrderType.marketOrder = OrderType.cancelOrder)]
         exact foldl_history_book _ _)
      | (rw [if_neg (by simp : ¬ OrderType.limitOrder = OrderType.cancelOrder)]
         exact foldl_history_book _ _)
      | rw [if_pos rfl]
      | (rw [if_neg (by simp : ¬ OrderType.noActionOrder = OrderType.cancelOrder)])
      | (rw [if_neg (by simp : ¬ OrderType.stopMarketOrder = OrderType.cancelOrder)])
      | (rw [if_neg (by simp : ¬ OrderType.stopLimitOrder = OrderType.cancelOrder)])

/-- The combined invariant-preservation fact: after a `PlaceOrder` of a valid
order with finite price and fresh id, and after any `CancelOrder`, the book
stays well-formed and uncrossed. -/
theorem book_invariant_preserved (st : EngineState) (o : Order) (oid : Nat)
    (now : Nat) (hwf : BookWF st.orderBook) (hunc : Uncrossed st.orderBook)
    (hvalid : o.IsValid = true)
    (hpm : o.orderType = .limitOrder → o.price ≤ maxFloat)
    (hfresh1 : o.id ∉ sideIds st.orderBook.bids)
    (hfresh2 : o.id ∉ sideIds st.orderBook.asks) :
    (BookWF (PlaceOrder st o now).2.orderBook ∧
      Uncrossed (PlaceOrder st o now).2.orderBook) ∧
    (BookWF (CancelOrder st oid).2.orderBook ∧
      Uncrossed (CancelOrder st oid).2.orderBook) := by
  refine ⟨?_, cancel_book_preserves st oid hwf hunc⟩
  rw [PlaceOrder_book]
  cases hty : o.orderType with
  | marketOrder => exact market_book_preserves (TrackOrder st o) o now hwf hunc
  | limitOrder =>
    exact limit_book_preserves (TrackOrder st o) o now hwf hunc
      ((IsValid_facts o hvalid).2.2.2 hty) (hpm hty) hfresh1 hfresh2
  | cancelOrder => exact cancel_book_preserves st o.id hwf hunc
  | noActionOrder => exact ⟨hwf, hunc⟩
  | stopMarketOrder => exact ⟨hwf, hunc⟩
  | stopLimitOrder => exact ⟨hwf, hunc⟩

/-! ### Characterization of cancellation -/

theorem findOrderIdx_none_all (blk : List Order) (oid : Nat)
    (h : findOrderIdx blk oid = none) : ∀ o ∈ blk, o.id ≠ oid := by
  induction blk with
  | nil => intro o ho; simp at ho
  | cons a l ih =>
    rw [findOrderIdx] at h
    by_cases ha : a.id = oid
    · rw [if_pos ha] at h
      exact absurd h (by simp)
    · rw [if_neg ha] at h
      intro o ho
      rcases List.mem_cons.mp ho with ho | ho
      · exact ho ▸ ha
      · exact ih (by
          cases hfo : findOrderIdx l oid with
          | none => rfl
          | some j => rw [hfo] at h; exact absurd h (by simp)) o ho

theorem findOrderIdx_some_mem (blk : List Order) (oid : Nat) (i : Nat)
    (h : findOrderIdx blk oid = some i) : oid ∈ blk.map Order.id := by
  induction blk generalizing i with
  | nil => simp [findOrderIdx] at h
  | cons a l ih =>
    rw [findOrderIdx] at h
    by_cases ha : a.id = oid
    · exact List.mem_cons.mpr (Or.inl ha.symm)
    · rw [if_neg ha] at h
      rcases Option.map_eq_some'.mp h with ⟨i', hi', _⟩
      exact List.mem_cons.mpr (Or.inr (ih i' hi'))

theorem findOrder_none_not_mem (s : BookSide) (oid : Nat)
    (h : findOrderInBookSide s oid = none) : oid ∉ sideIds s := by
  induction s with
  | nil => simp [sideIds, sideOrders]
  | cons hd tl ih =>
    obtain ⟨q, b⟩ := hd
    rw [show findOrderInBookSide ((q, b) :: tl) oid =
      (match findOrderIdx b oid with
        | some i => some (q, i)
        | none => findOrderInBookSide tl oid) from rfl] at h
    cases hf : findOrderIdx b oid with
    | some j => rw [hf] at h; exact absurd h (by simp)
    | none =>
      rw [hf] at h
      rw [sideIds_cons]
      intro hmem
      rcases List.mem_append.mp hmem with hm | hm
      · rcases List.mem_map.mp hm with ⟨o, ho, he⟩
        exact findOrderIdx_none_all b oid hf o ho he
      · exact ih h hm

theorem findOrder_some_char (s : BookSide) (oid : Nat) (p : ℚ) (i : Nat)
    (hnd : (s.map Prod.fst).Nodup)
    (h : findOrderInBookSide s oid = some (p, i)) :
    findOrderIdx (lookupLevel s p) oid = some i := by
  induction s with
  | nil => simp [findOrderInBookSide] at h
  | cons hd tl ih =>
    obtain ⟨q, b⟩ := hd
    rw [List.map_cons, List.nodup_cons] at hnd
    rw [show findOrderInBookSide ((q, b) :: tl) oid =
      (match findOrderIdx b oid with
        | some i => some (q, i)
        | none => findOrderInBookSide tl oid) from rfl] at h
    cases hf : findOrderIdx b oid with
    | some j =>
      rw [hf] at h
      injection h with h
      have hq : q = p := congrArg Prod.fst h
      have hj : j = i := congrArg Prod.snd h
      subst hq
      subst hj
      rw [lookupLevel_cons, if_pos rfl]
      exact hf
    | none =>
      rw [hf] at h
      have hp : p ∈ tl.map Prod.fst := findOrder_some_key tl oid p i h
      have hq : q ≠ p := by
        intro hc
        exact hnd.1 (hc ▸ hp)
      rw [lookupLevel_cons, if_neg hq]
      exact ih hnd.2 h

theorem lookup_ids_sublist_side (s : BookSide) (p : ℚ) :
    ((lookupLevel s p).map Order.id).Sublist (sideIds s) := by
  induction s with
  | nil => simp [lookupLevel_nil, sideIds, sideOrders]
  | cons hd tl ih =>
    obtain ⟨q, b⟩ := hd
    rw [lookupLevel_cons, sideIds_cons]
    by_cases hq : q = p
    · rw [if_pos hq]
      exact List.sublist_append_left _ _
    · rw [if_neg hq]
      exact ih.trans (List.sublist_append_right _ _)

/-- Ids at distinct price levels differ when the side's ids are nodup. -/
theorem nodup_ids_levels (s : BookSide) (hnd : (sideIds s).Nodup)
    (p q : ℚ) (hpq : p ≠ q) (x : Nat)
    (hx : x ∈ (lookupLevel s p).map Order.id) :
    x ∉ (lookupLevel s q).map Order.id := by
  induction s with
  | nil => simp [lookupLevel_nil] at hx
  | cons hd tl ih =>
    obtain ⟨k, b⟩ := hd
    rw [sideIds_cons] at hnd
    have hdisj := (List.nodup_append.mp hnd).2.2
    rw [lookupLevel_cons] at hx
    rw [lookupLevel_cons]
    by_cases hkp : k = p
    · rw [if_pos hkp] at hx
      rw [if_neg (by rw [hkp]; exact hpq)]
      intro hxq
      have : x ∈ sideIds tl :=
        (lookup_ids_sublist_side tl q).subset hxq
      exact hdisj hx this
    · rw [if_neg hkp] at hx
      by_cases hkq : k = q
      · rw [if_pos hkq]
        intro hxb
        have : x ∈ sideIds tl :=
          (lookup_ids_sublist_side tl p).subset hx
        exact hdisj hxb this
      · rw [if_neg hkq]
        exact ih (List.nodup_append.mp hnd).2.1 hx

/-- Characterization of a successful deletion when the id is present. -/
theorem DeleteOrderFromSide_found (s : BookSide) (oid : Nat) (hwf : SideWF s)
    (hmem : oid ∈ sideIds s) :
    (DeleteOrderFromSide s oid).1 = true ∧
    (∀ p, lookupLevel (DeleteOrderFromSide s oid).2 p =
      (lookupLevel s p).filter (fun o => decide (¬ o.id = oid))) ∧
    oid ∉ sideIds (DeleteOrderFromSide s oid).2 := by
  cases hf : findOrderInBookSide s oid with
  | none => exact absurd hmem (findOrder_none_not_mem s oid hf)
  | some pi =>
    obtain ⟨p, i⟩ := pi
    have hpmem : p ∈ s.map Prod.fst := findOrder_some_key s oid p i hf
    have hidx : findOrderIdx (lookupLevel s p) oid = some i :=
      findOrder_some_char s oid p i hwf.1 hf
    have hblknd : ((lookupLevel s p).map Order.id).Nodup :=
      hwf.2.1.sublist (lookup_ids_sublist_side s p)
    have herase : (lookupLevel s p).eraseIdx i =
        (lookupLevel s p).filter (fun o => decide (¬ o.id = oid)) :=
      eraseIdx_of_findOrderIdx (lookupLevel s p) oid i hblknd hidx
    have hoidp : oid ∈ (lookupLevel s p).map Order.id :=
      findOrderIdx_some_mem (lookupLevel s p) oid i hidx
    have hother : ∀ q, q ≠ p →
        (lookupLevel s q).filter (fun o => decide (¬ o.id = oid)) = lookupLevel s q := by
      intro q hq
      rw [List.filter_eq_self]
      intro o ho
      have : o.id ∉ (lookupLevel s p).map Order.id → True := fun _ => trivial
      have hnin := nodup_ids_levels s hwf.2.1 p q (fun hc => hq hc.symm) oid hoidp
      simp only [decide_eq_true_eq]
      intro hc
      exact hnin (by rw [← hc]; exact List.mem_map.mpr ⟨o, ho, rfl⟩)
    have htrue : (DeleteOrderFromSide s oid).1 = true := by
      rw [DeleteOrderFromSide, hf]
      show (if (lookupLevel s p).eraseIdx i = [] then (true, eraseLevel s p)
        else (true, setLevel s p ((lookupLevel s p).eraseIdx i))).1 = true
      by_cases he : (lookupLevel s p).eraseIdx i = []
      · rw [if_pos he]
      · rw [if_neg he]
    have hshape : (DeleteOrderFromSide s oid).2 =
        if (lookupLevel s p).eraseIdx i = [] then eraseLevel s p
        else setLevel s p ((lookupLevel s p).eraseIdx i) := by
      rw [DeleteOrderFromSide, hf]
      show (if (lookupLevel s p).eraseIdx i = [] then (true, eraseLevel s p)
        else (true, setLevel s p ((lookupLevel s p).eraseIdx i))).2 = _
      by_cases he : (lookupLevel s p).eraseIdx i = []
      · rw [if_pos he, if_pos he]
      · rw [if_neg he, if_neg he]
    have hlook : ∀ q, lookupLevel (DeleteOrderFromSide s oid).2 q =
        (lookupLevel s q).filter (fun o => decide (¬ o.id = oid)) := by
      intro q
      rw [hshape]
      by_cases he : (lookupLevel s p).eraseIdx i = []
      · rw [if_pos he]
        by_cases hq : q = p
        · subst hq
          rw [lookupLevel_eraseLevel_self, ← herase, he]
        · rw [lookupLevel_eraseLevel_ne s p q hq, hother q hq]
      · rw [if_neg he]
        by_cases hq : q = p
        · subst hq
          rw [lookupLevel_setLevel_self, herase]
        · rw [lookupLevel_setLevel_ne s p q _ hq, hother q hq]
    refine ⟨htrue, hlook, ?_⟩
    intro hbad
    rcases (mem_sideIds_iff _ oid).mp hbad with ⟨l, hl, o, ho, hid⟩
    have hkeysnd : ((DeleteOrderFromSide s oid).2.map Prod.fst).Nodup :=
      (DeleteOrderFromSide_WF s oid hwf).1.1
    have hblk : lookupLevel (DeleteOrderFromSide s oid).2 l.1 = l.2 :=
      entry_lookupLevel_of_nodup _ l.1 l.2 hkeysnd (by
        cases l
        exact hl)
    have := hlook l.1
    rw [hblk] at this
    have ho' : o ∈ (lookupLevel s l.1).filter (fun o => decide (¬ o.id = oid)) := by
      rw [← this]
      exact ho
    have := List.of_mem_filter ho'
    simp only [decide_eq_true_eq] at this
    exact this hid

theorem DeleteOrderFromSide_not_found (s : BookSide) (oid : Nat)
    (h : oid ∉ sideIds s) : DeleteOrderFromSide s oid = (false, s) := by
  rw [DeleteOrderFromSide, findOrder_none_of_not_mem s oid h]

theorem DeleteBidOrder_not_found (b : OrderBook) (oid : Nat)
    (h : oid ∉ sideIds b.bids) : DeleteBidOrder b oid = (false, b) := by
  rw [DeleteBidOrder, DeleteOrderFromSide_not_found _ _ h]

theorem DeleteAskOrder_not_found (b : OrderBook) (oid : Nat)
    (h : oid ∉ sideIds b.asks) : DeleteAskOrder b oid = (false, b) := by
  rw [DeleteAskOrder, DeleteOrderFromSide_not_found _ _ h]

/-- Cancelling an id that rests nowhere returns `false` and changes
nothing. -/
theorem CancelOrder_not_found (st : EngineState) (oid : Nat)
    (h1 : oid ∉ sideIds st.orderBook.bids)
    (h2 : oid ∉ sideIds st.orderBook.asks) :
    CancelOrder st oid = (false, st) := by
  have hdel : DeleteOrderById st.orderBook oid = (false, st.orderBook) := by
    rw [DeleteOrderById, DeleteBidOrder_not_found st.orderBook oid h1]
    rw [if_neg (by simp)]
    exact DeleteAskOrder_not_found st.orderBook oid h2
  rw [CancelOrder, hdel, if_neg (by simp)]

/-- Cancelling a resting id succeeds: the order leaves its level (empty
levels dropped), the index entry is removed, the trade history is untouched,
and the id rests nowhere afterwards. -/
theorem CancelOrder_found (st : EngineState) (oid : Nat)
    (hwf : BookWF st.orderBook)
    (hmem : oid ∈ sideIds st.orderBook.bids ++ sideIds st.orderBook.asks) :
    (CancelOrder st oid).1 = true ∧
    (∀ p, lookupLevel (CancelOrder st oid).2.orderBook.bids p =
      (lookupLevel st.orderBook.bids p).filter (fun o => decide (¬ o.id = oid))) ∧
    (∀ p, lookupLevel (CancelOrder st oid).2.orderBook.asks p =
      (lookupLevel st.orderBook.asks p).filter (fun o => decide (¬ o.id = oid))) ∧
    (CancelOrder st oid).2.orderStore = st.orderStore.Remove oid ∧
    (CancelOrder st oid).2.tradeStore = st.tradeStore ∧
    oid ∉ sideIds (CancelOrder st oid).2.orderBook.bids ∧
    oid ∉ sideIds (CancelOrder st oid).2.orderBook.asks := by
  have hfilter_id : ∀ (s : BookSide), oid ∉ sideIds s → ∀ p,
      (lookupLevel s p).filter (fun o => decide (¬ o.id = oid)) = lookupLevel s p := by
    intro s hs p
    rw [List.filter_eq_self]
    intro o ho
    simp only [decide_eq_true_eq]
    intro hc
    exact hs ((lookup_ids_sublist_side s p).subset
      (List.mem_map.mpr ⟨o, ho, hc⟩))
  rcases List.mem_append.mp hmem with hmb | hma
  · obtain ⟨ht, hlook, hnot⟩ := DeleteOrderFromSide_found st.orderBook.bids oid hwf.1 hmb
    have hna : oid ∉ sideIds st.orderBook.asks := hwf.2.2 oid hmb
    have hdb : DeleteBidOrder st.orderBook oid =
        (true, { st.orderBook with bids := (DeleteOrderFromSide st.orderBook.bids oid).2 }) := by
      rw [DeleteBidOrder, ht]
    have hdel : DeleteOrderById st.orderBook oid =
        (true, { st.orderBook with bids := (DeleteOrderFromSide st.orderBook.bids oid).2 }) := by
      rw [DeleteOrderById, hdb, if_pos rfl]
    have hco : CancelOrder st oid =
        (true, UntrackOrder { st with orderBook :=
          { st.orderBook with bids := (DeleteOrderFromSide st.orderBook.bids oid).2 } } oid) := by
      rw [CancelOrder, hdel, if_pos rfl]
    rw [hco]
    refine ⟨rfl, hlook, ?_, rfl, rfl, hnot, hna⟩
    intro p
    exact (hfilter_id st.orderBook.asks hna p).symm
  · obtain ⟨ht, hlook, hnot⟩ := DeleteOrderFromSide_found st.orderBook.asks oid hwf.2.1 hma
    have hnb : oid ∉ sideIds st.orderBook.bids := by
      intro hc
      exact hwf.2.2 oid hc hma
    have hdb := DeleteBidOrder_not_found st.orderBook oid hnb
    have hda : DeleteAskOrder st.orderBook oid =
        (true, { st.orderBook with asks := (DeleteOrderFromSide st.orderBook.asks oid).2 }) := by
      rw [DeleteAskOrder, ht]
    have hdel : DeleteOrderById st.orderBook oid =
        (true, { st.orderBook with asks := (DeleteOrderFromSide st.orderBook.asks oid).2 }) := by
      rw [DeleteOrderById, hdb, if_neg (by simp)]
      exact hda
    have hco : CancelOrder st oid =
        (true, UntrackOrder { st with orderBook :=
          { st.orderBook with asks := (DeleteOrderFromSide st.orderBook.asks oid).2 } } oid) := by
      rw [CancelOrder, hdel, if_pos rfl]
    rw [hco]
    refine ⟨rfl, ?_, hlook, rfl, rfl, hnb, hnot⟩
    intro p
    exact (hfilter_id st.orderBook.bids hnb p).symm

/-! ### Round trip: resting a non-crossing limit then cancelling it -/

theorem eraseIdx_append_length (l : List Order) (x : Order) :
    (l ++ [x]).eraseIdx l.length = l := by
  induction l with
  | nil => rfl
  | cons a l ih =>
    rw [List.cons_append, List.length_cons, List.eraseIdx_cons_succ, ih]

theorem findOrder_addOrder (s : BookSide) (o : Order)
    (hid : o.id ∉ sideIds s) :
    findOrderInBookSide (setLevel s o.price (lookupLevel s o.price ++ [o])) o.id =
      some (o.price, (lookupLevel s o.price).length) := by
  induction s with
  | nil =>
    rw [lookupLevel_nil]
    show (match findOrderIdx ([] ++ [o]) o.id with
      | some i => some (o.price, i)
      | none => findOrderInBookSide [] o.id) = _
    rw [findOrderIdx_append [] o (by intro x hx; simp at hx)]
  | cons hd tl ih =>
    obtain ⟨q, b⟩ := hd
    rw [sideIds_cons] at hid
    have hidb : ∀ x ∈ b, x.id ≠ o.id := by
      intro x hx he
      exact hid (List.mem_append.mpr (Or.inl (List.mem_map.mpr ⟨x, hx, he⟩)))
    have hidtl : o.id ∉ sideIds tl := fun hc =>
      hid (List.mem_append.mpr (Or.inr hc))
    rw [lookupLevel_cons, setLevel_cons]
    by_cases hq : q = o.price
    · simp only [if_pos hq]
      show (match findOrderIdx (b ++ [o]) o.id with
        | some i => some (o.price, i)
        | none => findOrderInBookSide tl o.id) = _
      rw [findOrderIdx_append b o hidb]
    · simp only [if_neg hq]
      show (match findOrderIdx b o.id with
        | some i => some (q, i)
        | none => findOrderInBookSide (setLevel tl o.price (lookupLevel tl o.price ++ [o])) o.id) = _
      rw [findOrderIdx_eq_none b o.id hidb]
      exact ih hidtl

/-- Deleting a freshly appended order restores the side exactly. -/
theorem delete_added_order (s : BookSide) (o : Order) (hwf : SideWF s)
    (hid : o.id ∉ sideIds s) :
    DeleteOrderFromSide (setLevel s o.price (lookupLevel s o.price ++ [o])) o.id =
      (true, s) := by
  rw [DeleteOrderFromSide, findOrder_addOrder s o hid]
  show (if (lookupLevel (setLevel s o.price (lookupLevel s o.price ++ [o])) o.price).eraseIdx
      (lookupLevel s o.price).length = [] then _ else _) = _
  rw [lookupLevel_setLevel_self, eraseIdx_append_length]
  by_cases he : lookupLevel s o.price = []
  · rw [if_pos he]
    have hnm : o.price ∉ s.map Prod.fst := by
      intro hc
      exact lookupLevel_ne_nil_of_mem_keys s hwf o.price hc he
    rw [eraseLevel_setLevel, eraseLevel_of_not_mem s o.price hnm]
  · rw [if_neg he]
    rw [setLevel_setLevel, setLevel_lookup_self s o.price
      (mem_keys_of_lookupLevel_ne_nil s o.price he)]

/-- The loop does nothing when the entry test already fails. -/
theorem matchLoop_break (incoming : Order) (now : Nat) (canMatch : ℚ → ℚ → Bool)
    (best : BookSide → ℚ × List Order) (fuel : Nat) (s : BookSide)
    (store : MemOrderStore) (remaining : Int)
    (h : (best s).2 = [] ∨ canMatch incoming.price (best s).1 = false) :
    matchLoop incoming now canMatch best fuel s store remaining =
      ⟨s, store, remaining, []⟩ := by
  cases fuel with
  | zero => rfl
  | succ fuel =>
    rcases matchLoop_succ_char incoming now canMatch best fuel s store remaining with
      ⟨heq, _⟩ | ⟨opp, rest, fill, hblk, _, hcm, _, _⟩
    · exact heq
    · rcases h with h | h
      · rw [h] at hblk
        exact absurd hblk (by simp)
      · exact absurd h hcm

/-- A valid non-crossing limit order rests at its own price and changes the
book in no other way. -/
theorem place_noncross_book (st : EngineState) (o : Order) (now : Nat)
    (hvalid : o.IsValid = true) (hty : o.orderType = .limitOrder)
    (hnc : if o.side = .buy
      then (GetBestAsk st.orderBook.asks).2 = [] ∨
        decide ((GetBestAsk st.orderBook.asks).1 ≤ o.price) = false
      else (GetBestBid st.orderBook.bids).2 = [] ∨
        decide (o.price ≤ (GetBestBid st.orderBook.bids).1) = false) :
    (PlaceOrder st o now).2.orderBook =
      if o.side = .buy then AddBidOrder st.orderBook o else AddAskOrder st.orderBook o := by
  have hsz : 0 < o.size := (IsValid_facts o hvalid).2.2.1
  rw [PlaceOrder_book, hty]
  show (executeLimitOrder (TrackOrder st o) o now).2.orderBook = _
  by_cases hside : o.side = .buy
  · rw [if_pos hside] at hnc ⊢
    simp only [executeLimitOrder, if_pos hside]
    rw [show (TrackOrder st o).orderBook = st.orderBook from rfl]
    rw [matchLoop_break o now
      (fun limitPrice bestPrice => decide (bestPrice ≤ limitPrice)) GetBestAsk
      (countOrders st.orderBook.asks + 2) st.orderBook.asks
      (TrackOrder st o).orderStore o.size hnc]
    rw [if_pos hsz]
  · rw [if_neg hside] at hnc ⊢
    simp only [executeLimitOrder, if_neg hside]
    rw [show (TrackOrder st o).orderBook = st.orderBook from rfl]
    rw [matchLoop_break o now
      (fun limitPrice bestPrice => decide (limitPrice ≤ bestPrice)) GetBestBid
      (countOrders st.orderBook.bids + 2) st.orderBook.bids
      (TrackOrder st o).orderStore o.size hnc]
    rw [if_pos hsz]

/-! ### Store lemmas -/

theorem find?_upsert (m : List (Nat × Order)) (k : Nat) (o : Order) :
    (upsert m k o).find? (fun e => decide (e.1 = k)) = some (k, o) := by
  induction m with
  | nil => simp [upsert, List.find?]
  | cons e rest ih =>
    obtain ⟨k', o'⟩ := e
    rw [upsert]
    by_cases hk : k' = k
    · rw [if_pos hk]
      simp [List.find?]
    · rw [if_neg hk]
      rw [List.find?]
      have : (decide ((k', o').1 = k)) = false := by simp [hk]
      rw [this]
      exact ih

/-- `Get` after `Save` always returns the saved order: the upsert happens
after any eviction. -/
theorem Save_Get_self (s : MemOrderStore) (o : Order) :
    (s.Save o).Get o.id = some o := by
  rw [MemOrderStore.Save, MemOrderStore.Get]
  show ((upsert _ o.id o).find? (fun e => decide (e.1 = o.id))).map Prod.snd = some o
  rw [find?_upsert]
  rfl

/-- `InMemoryTradeStore.GetRecent` returns the `min n count` most recently
appended trades in oldest-first (append) order: reversing the result gives
the newest-first prefix of the reversed log. -/
theorem GetRecent_oldest_first (s : MemTradeStore) (n : Int) (hn : 0 < n) :
    (s.GetRecent n).reverse = s.trades.reverse.take (min n.toNat s.trades.length) := by
  rw [MemTradeStore.GetRecent]
  have hnn : ¬ n ≤ 0 := by omega
  by_cases hlen : (s.trades.length : Int) < n
  · simp only [hnn, hlen, false_or, or_true, if_true]
    have h1 : min n.toNat s.trades.length = s.trades.length := by omega
    rw [h1]
    have h2 : s.trades.length - s.trades.length = 0 := by omega
    rw [h2, List.drop_zero, ← List.length_reverse, List.take_length]
  · simp only [hnn, hlen, false_or, or_false, if_false]
    have h1 : min n.toNat s.trades.length = n.toNat := by omega
    rw [h1, List.reverse_drop]
    congr 1
    omega

/-! ### Composite-store characterizations -/

theorem compositeWrite_append_one {E : Type} (rs : List (Option E))
    (r : Option E) :
    compositeWrite (rs ++ [r]) =
      (match r with | some e => some e | none => compositeWrite rs) := by
  rw [compositeWrite, compositeWrite, List.foldl_append]
  rfl

/-- The composite write returns the last error among the layers' outcomes,
and succeeds exactly when every layer succeeded. -/
theorem compositeWrite_char {E : Type} (rs : List (Option E)) :
    compositeWrite rs = (rs.filterMap id).getLast? ∧
    (compositeWrite rs = none ↔ ∀ r ∈ rs, r = none) := by
  have hchar : ∀ rs : List (Option E),
      compositeWrite rs = (rs.filterMap id).getLast? := by
    intro rs
    induction rs using List.reverseRecOn with
    | nil => rfl
    | append_singleton l r ih =>
      rw [compositeWrite_append_one, List.filterMap_append]
      cases r with
      | none =>
        rw [show List.filterMap id [(none : Option E)] = [] from rfl, List.append_nil]
        exact ih
      | some e =>
        show some e = _
        rw [show List.filterMap id [some e] = [e] from rfl, List.getLast?_concat]
  refine ⟨hchar rs, ?_⟩
  rw [hchar rs]
  constructor
  · intro h
    have : rs.filterMap id = [] := List.getLast?_eq_none_iff.mp h
    intro r hr
    exact List.filterMap_eq_nil_iff.mp this r hr
  · intro h
    have hnil : rs.filterMap id = [] := List.filterMap_eq_nil_iff.mpr h
    rw [hnil]
    rfl

/-- The first-hit rule of a composite read: a layer's outcome is a hit only
when it is error-free and found. -/
def compositeGetHit {A E : Type} (r : Option A × Option E) : Option A :=
  if r.2.isNone && r.1.isSome then r.1 else none

/-- The composite get returns the first error-free found result, never an
error, and falls through both on errors and on successful NOT-FOUNDs. -/
theorem compositeGet_char {A E : Type} (rs : List (Option A × Option E)) :
    compositeGet rs = ((rs.filterMap compositeGetHit).head?, (none : Option E)) := by
  induction rs with
  | nil => rfl
  | cons r rest ih =>
    rw [compositeGet, List.filterMap_cons]
    by_cases h : r.2.isNone && r.1.isSome
    · rw [if_pos h]
      rw [show compositeGetHit r = r.1 from by rw [compositeGetHit, if_pos h]]
      rcases Option.isSome_iff_exists.mp (Bool.and_elim_right h) with ⟨a, ha⟩
      rw [ha]
      rfl
    · rw [if_neg h]
      rw [show compositeGetHit r = none from by rw [compositeGetHit, if_neg h]]
      exact ih

/-! ### Book add-order lookups (FIFO tail append) -/

theorem AddBidOrder_lookup (b : OrderBook) (o : Order) (p : ℚ) :
    lookupLevel (AddBidOrder b o).bids p =
      lookupLevel b.bids p ++ (if p = o.price then [o] else []) := by
  rw [AddBidOrder]
  by_cases hp : p = o.price
  · subst hp
    rw [if_pos rfl]
    exact lookupLevel_setLevel_self _ _ _
  · rw [if_neg hp, List.append_nil]
    exact lookupLevel_setLevel_ne _ _ _ _ hp

theorem AddAskOrder_lookup (b : OrderBook) (o : Order) (p : ℚ) :
    lookupLevel (AddAskOrder b o).asks p =
      lookupLevel b.asks p ++ (if p = o.price then [o] else []) := by
  rw [AddAskOrder]
  by_cases hp : p = o.price
  · subst hp
    rw [if_pos rfl]
    exact lookupLevel_setLevel_self _ _ _
  · rw [if_neg hp, List.append_nil]
    exact lookupLevel_setLevel_ne _ _ _ _ hp

/-! ### Trade-list projections of PlaceOrder -/

theorem PlaceOrder_trades (st : EngineState) (o : Order) (now : Nat) :
    (PlaceOrder st o now).1 =
      (match o.orderType with
      | .marketOrder => (executeMarketOrder (TrackOrder st o) o now).1
      | .limitOrder => (executeLimitOrder (TrackOrder st o) o now).1
      | _ => []) := by
  cases hty : o.orderType <;>
    simp only [PlaceOrder, hty] <;>
    first
      | rfl
      | (rw [if_neg (by simp : ¬ OrderType.marketOrder = OrderType.cancelOrder)])
      | (rw [if_neg (by simp : ¬ OrderType.limitOrder = OrderType.cancelOrder)])

theorem executeMarketOrder_trades (st : EngineState) (o : Order) (now : Nat) :
    (executeMarketOrder st o now).1 =
      (if o.side = .buy then
        matchLoop o now (fun _ _ => true) GetBestAsk
          (countOrders st.orderBook.asks + 2) st.orderBook.asks st.orderStore o.size
      else
        matchLoop o now (fun _ _ => true) GetBestBid
          (countOrders st.orderBook.bids + 2) st.orderBook.bids st.orderStore o.size).trades := by
  by_cases hside : o.side = .buy
  · simp only [executeMarketOrder, if_pos hside]
  · simp only [executeMarketOrder, if_neg hside]

theorem executeLimitOrder_trades (st : EngineState) (o : Order) (now : Nat) :
    (executeLimitOrder st o now).1 =
      (if o.side = .buy then
        matchLoop o now (fun limitPrice bestPrice => decide (bestPrice ≤ limitPrice))
          GetBestAsk (countOrders st.orderBook.asks + 2) st.orderBook.asks
          st.orderStore o.size
      else
        matchLoop o now (fun limitPrice bestPrice => decide (limitPrice ≤ bestPrice))
          GetBestBid (countOrders st.orderBook.bids + 2) st.orderBook.bids
          st.orderStore o.size).trades := by
  by_cases hside : o.side = .buy
  · simp only [executeLimitOrder, if_pos hside]
    by_cases hrem : 0 < (matchLoop o now
        (fun limitPrice bestPrice => decide (bestPrice ≤ limitPrice)) GetBestAsk
        (countOrders st.orderBook.asks + 2) st.orderBook.asks st.orderStore o.size).remaining
    · rw [if_pos hrem]
    · rw [if_neg hrem]
  · simp only [executeLimitOrder, if_neg hside]
    by_cases hrem : 0 < (matchLoop o now
        (fun limitPrice bestPrice => decide (limitPrice ≤ bestPrice)) GetBestBid
        (countOrders st.orderBook.bids + 2) st.orderBook.bids st.orderStore o.size).remaining
    · rw [if_pos hrem]
    · rw [if_neg hrem]

theorem cancel_book_wf (st : EngineState) (oid : Nat)
    (hwf : BookWF st.orderBook) : BookWF (CancelOrder st oid).2.orderBook := by
  rw [CancelOrder_book]
  have hbids := DeleteOrderFromSide_WF st.orderBook.bids oid hwf.1
  have hasks := DeleteOrderFromSide_WF st.orderBook.asks oid hwf.2.1
  have hidsb := sideIds_subset_of_shrink _ _ (shrinkSide_delete st.orderBook.bids oid)
  have hidsa := sideIds_subset_of_shrink _ _ (shrinkSide_delete st.orderBook.asks oid)
  rw [DeleteOrderById]
  by_cases h : (DeleteBidOrder st.orderBook oid).1
  · rw [if_pos h]
    exact ⟨hbids.1, hwf.2.1, fun i hi hia => hwf.2.2 i (hidsb i hi) hia⟩
  · rw [if_neg h]
    exact ⟨hbids.1, hasks.1, fun i hi hia => hwf.2.2 i (hidsb i hi) (hidsa i hia)⟩

/-! ### Concrete inputs for the examples -/

/-- A concrete order used in the examples. -/
def exOrder (id : Nat) (ty : OrderType) (sd : SideType) (p : ℚ) (sz : Int) : Order :=
  ⟨id, "user", "COOTX", ty, sd, p, 0, sz, 0⟩

/-- A fresh engine with the default store capacities. -/
def exEmpty : EngineState := ⟨NewOrderBook, ⟨[], [], 100000⟩, ⟨[], 1000⟩⟩

/-! ### The claims -/

/-- C1: every trade emitted by a `PlaceOrder` call executes at the price of
the resting opposite-side order it filled against (identified by the trade's
resting-side id), and the trade's buy/sell order ids are assigned according
to the incoming order's side. -/
theorem c1_trade_price_and_ids (st : EngineState) (o : Order) (now : Nat) :
    ∀ t ∈ (PlaceOrder st o now).1,
      ∃ rest ∈ sideOrders
          (if o.side = .buy then st.orderBook.asks else st.orderBook.bids),
        t.price = rest.price ∧
        (o.side = .buy → t.buyOrderId = o.id ∧ t.sellOrderId = rest.id) ∧
        (¬ o.side = .buy → t.sellOrderId = o.id ∧ t.buyOrderId = rest.id) := by
  intro t ht
  rw [PlaceOrder_trades] at ht
  cases hty : o.orderType <;> rw [hty] at ht
  case noActionOrder => exact absurd ht (List.not_mem_nil t)
  case cancelOrder => exact absurd ht (List.not_mem_nil t)
  case stopMarketOrder => exact absurd ht (List.not_mem_nil t)
  case stopLimitOrder => exact absurd ht (List.not_mem_nil t)
  case marketOrder =>
    rw [executeMarketOrder_trades] at ht
    by_cases hside : o.side = .buy
    · rw [if_pos hside] at ht ⊢
      exact (matchLoop_shrink_trades o now (fun _ _ => true) GetBestAsk
        (Or.inr rfl) _ st.orderBook.asks (TrackOrder st o).orderStore o.size).2 t ht
    · rw [if_neg hside] at ht ⊢
      exact (matchLoop_shrink_trades o now (fun _ _ => true) GetBestBid
        (Or.inl rfl) _ st.orderBook.bids (TrackOrder st o).orderStore o.size).2 t ht
  case limitOrder =>
    rw [executeLimitOrder_trades] at ht
    by_cases hside : o.side = .buy
    · rw [if_pos hside] at ht ⊢
      exact (matchLoop_shrink_trades o now
        (fun limitPrice bestPrice => decide (bestPrice ≤ limitPrice)) GetBestAsk
        (Or.inr rfl) _ st.orderBook.asks (TrackOrder st o).orderStore o.size).2 t ht
    · rw [if_neg hside] at ht ⊢
      exact (matchLoop_shrink_trades o now
        (fun limitPrice bestPrice => decide (limitPrice ≤ bestPrice)) GetBestBid
        (Or.inl rfl) _ st.orderBook.bids (TrackOrder st o).orderStore o.size).2 t ht

/-- The book and one resting sell used to exercise C1 (scenario S2 of the
spec: price improvement). -/
def c1exSt : EngineState :=
  (PlaceOrder exEmpty (exOrder 1 .limitOrder .sell 101 10) 0).2

theorem c1_witness :
    (⟨0, 2, 1, 101, 10, 1⟩ : Trade) ∈
      (PlaceOrder c1exSt (exOrder 2 .limitOrder .buy 105 10) 1).1 ∧
    ∃ rest ∈ sideOrders
        (if (exOrder 2 .limitOrder .buy 105 10).side = .buy
          then c1exSt.orderBook.asks else c1exSt.orderBook.bids),
      (⟨0, 2, 1, 101, 10, 1⟩ : Trade).price = rest.price ∧
      ((exOrder 2 .limitOrder .buy 105 10).side = .buy →
        (⟨0, 2, 1, 101, 10, 1⟩ : Trade).buyOrderId = (exOrder 2 .limitOrder .buy 105 10).id ∧
        (⟨0, 2, 1, 101, 10, 1⟩ : Trade).sellOrderId = rest.id) ∧
      (¬ (exOrder 2 .limitOrder .buy 105 10).side = .buy →
        (⟨0, 2, 1, 101, 10, 1⟩ : Trade).sellOrderId = (exOrder 2 .limitOrder .buy 105 10).id ∧
        (⟨0, 2, 1, 101, 10, 1⟩ : Trade).buyOrderId = rest.id) :=
  ⟨by decide,
   c1_trade_price_and_ids c1exSt (exOrder 2 .limitOrder .buy 105 10) 1
     ⟨0, 2, 1, 101, 10, 1⟩ (by decide)⟩

/-- C4: a market order is never inserted into the book (no new resting id
appears, and its own side is untouched); when the opposite side is empty the
call returns no trades and leaves the book exactly as it was — the residual
is silently discarded rather than signalled. -/
theorem c4_market_never_rests (st : EngineState) (o : Order) (now : Nat)
    (hty : o.orderType = .marketOrder) :
    (∀ i, i ∈ sideIds (PlaceOrder st o now).2.orderBook.bids ++
        sideIds (PlaceOrder st o now).2.orderBook.asks →
      i ∈ sideIds st.orderBook.bids ++ sideIds st.orderBook.asks) ∧
    (o.side = .buy → (PlaceOrder st o now).2.orderBook.bids = st.orderBook.bids) ∧
    (¬ o.side = .buy → (PlaceOrder st o now).2.orderBook.asks = st.orderBook.asks) ∧
    ((if o.side = .buy then st.orderBook.asks else st.orderBook.bids) = [] →
      (PlaceOrder st o now).1 = [] ∧
      (PlaceOrder st o now).2.orderBook = st.orderBook) := by
  have hbook := PlaceOrder_book st o now
  have htr := PlaceOrder_trades st o now
  rw [hty] at hbook htr
  by_cases hside : o.side = .buy
  · simp only [executeMarketOrder, if_pos hside] at hbook
    have hshr := sideIds_subset_of_shrink _ _
      (matchLoop_shrink_trades o now (fun _ _ => true) GetBestAsk (Or.inr rfl)
        (countOrders (TrackOrder st o).orderBook.asks + 2)
        (TrackOrder st o).orderBook.asks (TrackOrder st o).orderStore o.size).1
    refine ⟨?_, fun _ => by rw [hbook]; rfl, fun hc => absurd hside hc, ?_⟩
    · intro i hi
      rw [hbook] at hi
      rcases List.mem_append.mp hi with hi | hi
      · exact List.mem_append.mpr (Or.inl hi)
      · exact List.mem_append.mpr (Or.inr (hshr i hi))
    · rw [if_pos hside]
      intro hempty
      have hbreak := matchLoop_break o now (fun _ _ => true) GetBestAsk
        (countOrders (TrackOrder st o).orderBook.asks + 2)
        (TrackOrder st o).orderBook.asks (TrackOrder st o).orderStore o.size
        (by
          show (GetBestAsk st.orderBook.asks).2 = [] ∨ _
          rw [hempty]
          exact Or.inl rfl)
      constructor
      · rw [htr, executeMarketOrder_trades, if_pos hside]
        rw [show (TrackOrder st o).orderBook = st.orderBook from rfl, hempty]
        rw [show (TrackOrder st o).orderBook.asks = st.orderBook.asks from rfl,
          hempty] at hbreak
        rw [hbreak]
      · rw [hbook]
        rw [show (TrackOrder st o).orderBook.asks = st.orderBook.asks from rfl,
          hempty] at hbreak
        rw [show (TrackOrder st o).orderBook.asks = st.orderBook.asks from rfl,
          hempty, hbreak]
        show { st.orderBook with asks := [] } = st.orderBook
        rw [← hempty]
  · simp only [executeMarketOrder, if_neg hside] at hbook
    have hshr := sideIds_subset_of_shrink _ _
      (matchLoop_shrink_trades o now (fun _ _ => true) GetBestBid (Or.inl rfl)
        (countOrders (TrackOrder st o).orderBook.bids + 2)
        (TrackOrder st o).orderBook.bids (TrackOrder st o).orderStore o.size).1
    refine ⟨?_, fun hc => absurd hc hside, fun _ => by rw [hbook]; rfl, ?_⟩
    · intro i hi
      rw [hbook] at hi
      rcases List.mem_append.mp hi with hi | hi
      · exact List.mem_append.mpr (Or.inl (hshr i hi))
      · exact List.mem_append.mpr (Or.inr hi)
    · rw [if_neg hside]
      intro hempty
      have hbreak := matchLoop_break o now (fun _ _ => true) GetBestBid
        (countOrders (TrackOrder st o).orderBook.bids + 2)
        (TrackOrder st o).orderBook.bids (TrackOrder st o).orderStore o.size
        (by
          show (GetBestBid st.orderBook.bids).2 = [] ∨ _
          rw [hempty]
          exact Or.inl rfl)
      constructor
      · rw [htr, executeMarketOrder_trades, if_neg hside]
        rw [show (TrackOrder st o).orderBook = st.orderBook from rfl, hempty]
        rw [show (TrackOrder st o).orderBook.bids = st.orderBook.bids from rfl,
          hempty] at hbreak
        rw [hbreak]
      · rw [hbook]
        rw [show (TrackOrder st o).orderBook.bids = st.orderBook.bids from rfl,
          hempty] at hbreak
        rw [show (TrackOrder st o).orderBook.bids = st.orderBook.bids from rfl,
          hempty, hbreak]
        show { st.orderBook with bids := [] } = st.orderBook
        rw [← hempty]

theorem c4_witness :
    (exOrder 9 .marketOrder .buy 0 5).orderType = .marketOrder ∧
    ((∀ i, i ∈ sideIds (PlaceOrder exEmpty (exOrder 9 .marketOrder .buy 0 5) 0).2.orderBook.bids ++
        sideIds (PlaceOrder exEmpty (exOrder 9 .marketOrder .buy 0 5) 0).2.orderBook.asks →
      i ∈ sideIds exEmpty.orderBook.bids ++ sideIds exEmpty.orderBook.asks) ∧
    ((exOrder 9 .marketOrder .buy 0 5).side = .buy →
      (PlaceOrder exEmpty (exOrder 9 .marketOrder .buy 0 5) 0).2.orderBook.bids =
        exEmpty.orderBook.bids) ∧
    (¬ (exOrder 9 .marketOrder .buy 0 5).side = .buy →
      (PlaceOrder exEmpty (exOrder 9 .marketOrder .buy 0 5) 0).2.orderBook.asks =
        exEmpty.orderBook.asks) ∧
    ((if (exOrder 9 .marketOrder .buy 0 5).side = .buy
        then exEmpty.orderBook.asks else exEmpty.orderBook.bids) = [] →
      (PlaceOrder exEmpty (exOrder 9 .marketOrder .buy 0 5) 0).1 = [] ∧
      (PlaceOrder exEmpty (exOrder 9 .marketOrder .buy 0 5) 0).2.orderBook =
        exEmpty.orderBook)) :=
  ⟨by decide, c4_market_never_rests exEmpty (exOrder 9 .marketOrder .buy 0 5) 0 (by decide)⟩

/-- C2: matching consumes each price level of the matched (opposite) side
from the head only — the post-level is a FIFO tail of the pre-level, so
fills are taken in insertion order — and every order the book-side add
operations place into a level is appended at the tail of that level
(this is the path that rests the residual of a partially matched limit). -/
theorem c2_fifo_level (st : EngineState) (o : Order) (now : Nat)
    (hwf : BookWF st.orderBook)
    (hty : o.orderType = .marketOrder ∨ o.orderType = .limitOrder) :
    (∀ p, fifoTail
      (lookupLevel (if o.side = .buy then st.orderBook.asks else st.orderBook.bids) p)
      (lookupLevel (if o.side = .buy then (PlaceOrder st o now).2.orderBook.asks
        else (PlaceOrder st o now).2.orderBook.bids) p)) ∧
    (∀ (b : OrderBook) (x : Order) (p : ℚ),
      lookupLevel (AddBidOrder b x).bids p =
        lookupLevel b.bids p ++ (if p = x.price then [x] else []) ∧
      lookupLevel (AddAskOrder b x).asks p =
        lookupLevel b.asks p ++ (if p = x.price then [x] else [])) := by
  refine ⟨?_, fun b x p => ⟨AddBidOrder_lookup b x p, AddAskOrder_lookup b x p⟩⟩
  intro p
  have hbook := PlaceOrder_book st o now
  rcases hty with hty | hty <;> rw [hty] at hbook <;> by_cases hside : o.side = .buy
  · rw [if_pos hside, if_pos hside, hbook]
    simp only [executeMarketOrder, if_pos hside]
    exact (matchLoop_WF o now (fun _ _ => true) GetBestAsk (Or.inr rfl)
      (countOrders st.orderBook.asks + 2) st.orderBook.asks
      (TrackOrder st o).orderStore o.size hwf.2.1).2.2 p
  · rw [if_neg hside, if_neg hside, hbook]
    simp only [executeMarketOrder, if_neg hside]
    exact (matchLoop_WF o now (fun _ _ => true) GetBestBid (Or.inl rfl)
      (countOrders st.orderBook.bids + 2) st.orderBook.bids
      (TrackOrder st o).orderStore o.size hwf.1).2.2 p
  · rw [if_pos hside, if_pos hside, hbook]
    simp only [executeLimitOrder, if_pos hside]
    have hmain := (matchLoop_WF o now
      (fun limitPrice bestPrice => decide (bestPrice ≤ limitPrice)) GetBestAsk
      (Or.inr rfl) (countOrders st.orderBook.asks + 2) st.orderBook.asks
      (TrackOrder st o).orderStore o.size hwf.2.1).2.2 p
    by_cases hrem : 0 < (matchLoop o now
        (fun limitPrice bestPrice => decide (bestPrice ≤ limitPrice)) GetBestAsk
        (countOrders (TrackOrder st o).orderBook.asks + 2) (TrackOrder st o).orderBook.asks
        (TrackOrder st o).orderStore o.size).remaining
    · rw [if_pos hrem]
      exact hmain
    · rw [if_neg hrem]
      exact hmain
  · rw [if_neg hside, if_neg hside, hbook]
    simp only [executeLimitOrder, if_neg hside]
    have hmain := (matchLoop_WF o now
      (fun limitPrice bestPrice => decide (limitPrice ≤ bestPrice)) GetBestBid
      (Or.inl rfl) (countOrders st.orderBook.bids + 2) st.orderBook.bids
      (TrackOrder st o).orderStore o.size hwf.1).2.2 p
    by_cases hrem : 0 < (matchLoop o now
        (fun limitPrice bestPrice => decide (limitPrice ≤ bestPrice)) GetBestBid
        (countOrders (TrackOrder st o).orderBook.bids + 2) (TrackOrder st o).orderBook.bids
        (TrackOrder st o).orderStore o.size).remaining
    · rw [if_pos hrem]
      exact hmain
    · rw [if_neg hrem]
      exact hmain

/-- A book with three resting asks inserted at the same level in the order
id 1, id 2, id 3, used to exercise C2. -/
def c2exSt : EngineState :=
  (PlaceOrder ((PlaceOrder ((PlaceOrder exEmpty
    (exOrder 1 .limitOrder .sell 101 5) 0).2)
    (exOrder 2 .limitOrder .sell 101 5) 1).2)
    (exOrder 3 .limitOrder .sell 101 5) 2).2

theorem c2_witness :
    (BookWF c2exSt.orderBook ∧
      ((exOrder 4 .limitOrder .buy 101 7).orderType = .marketOrder ∨
        (exOrder 4 .limitOrder .buy 101 7).orderType = .limitOrder)) ∧
    ((∀ p, fifoTail
      (lookupLevel (if (exOrder 4 .limitOrder .buy 101 7).side = .buy
        then c2exSt.orderBook.asks else c2exSt.orderBook.bids) p)
      (lookupLevel (if (exOrder 4 .limitOrder .buy 101 7).side = .buy
        then (PlaceOrder c2exSt (exOrder 4 .limitOrder .buy 101 7) 3).2.orderBook.asks
        else (PlaceOrder c2exSt (exOrder 4 .limitOrder .buy 101 7) 3).2.orderBook.bids) p)) ∧
    (∀ (b : OrderBook) (x : Order) (p : ℚ),
      lookupLevel (AddBidOrder b x).bids p =
        lookupLevel b.bids p ++ (if p = x.price then [x] else []) ∧
      lookupLevel (AddAskOrder b x).asks p =
        lookupLevel b.asks p ++ (if p = x.price then [x] else []))) :=
  ⟨⟨by decide, Or.inr rfl⟩,
   c2_fifo_level c2exSt (exOrder 4 .limitOrder .buy 101 7) 3 (by decide) (Or.inr rfl)⟩

/-- A price strictly above `math.MaxFloat64` (a price Go would hold as
`+Inf` after any overflow, and `+Inf` passes the `Price <= 0` check). -/
def c3price : ℚ := ((2 ^ 1025 : ℕ) : ℚ)

/-- A limit sell priced beyond `math.MaxFloat64`: it passes `IsValid`,
which only requires a positive price. -/
def c3sell : Order := exOrder 1 .limitOrder .sell c3price 5

/-- A limit buy at the same beyond-sentinel price. -/
def c3buy : Order := exOrder 2 .limitOrder .buy c3price 5

/-- The state after submitting `c3sell` then `c3buy` to a fresh engine. -/
def c3St : EngineState :=
  (PlaceOrder (PlaceOrder exEmpty c3sell 0).2 c3buy 1).2

/-- C3 refutation: both submitted orders satisfy `IsValid`, yet after the two
`PlaceOrder` calls return, both book sides are non-empty and the best bid is
NOT strictly below the best ask: a price at or above the
`math.MaxFloat64` sentinel defeats the `GetBestAsk` scan (it returns the
sentinel with an empty block), so the crossing pair never matches and the
book stays crossed across calls. -/
theorem c3_counterexample :
    c3sell.IsValid = true ∧ c3buy.IsValid = true ∧
    c3St.orderBook.bids ≠ [] ∧ c3St.orderBook.asks ≠ [] ∧
    ¬ (GetBestBid c3St.orderBook.bids).1 < (GetBestAsk c3St.orderBook.asks).1 := by
  refine ⟨by decide, by decide, by decide, by decide, by decide⟩

/-- C3 (amended): with the extra precondition that limit prices stay at or
below `math.MaxFloat64` (finite in Go) and ids are fresh, every `PlaceOrder`
and every `CancelOrder` preserves well-formedness of the book and the
uncrossed property: whenever both sides are non-empty, the best bid is
strictly below the best ask. -/
theorem c3_uncrossed_across_calls (st : EngineState) (o : Order) (oid : Nat)
    (now : Nat) (hwf : BookWF st.orderBook) (hunc : Uncrossed st.orderBook)
    (hvalid : o.IsValid = true)
    (hpm : o.orderType = .limitOrder → o.price ≤ maxFloat)
    (hfresh1 : o.id ∉ sideIds st.orderBook.bids)
    (hfresh2 : o.id ∉ sideIds st.orderBook.asks) :
    (BookWF (PlaceOrder st o now).2.orderBook ∧
      Uncrossed (PlaceOrder st o now).2.orderBook) ∧
    (BookWF (CancelOrder st oid).2.orderBook ∧
      Uncrossed (CancelOrder st oid).2.orderBook) :=
  book_invariant_preserved st o oid now hwf hunc hvalid hpm hfresh1 hfresh2

theorem c3_witness :
    (BookWF c1exSt.orderBook ∧ Uncrossed c1exSt.orderBook ∧
      (exOrder 2 .limitOrder .buy 100 4).IsValid = true ∧
      ((exOrder 2 .limitOrder .buy 100 4).orderType = .limitOrder →
        (exOrder 2 .limitOrder .buy 100 4).price ≤ maxFloat) ∧
      (exOrder 2 .limitOrder .buy 100 4).id ∉ sideIds c1exSt.orderBook.bids ∧
      (exOrder 2 .limitOrder .buy 100 4).id ∉ sideIds c1exSt.orderBook.asks) ∧
    ((BookWF (PlaceOrder c1exSt (exOrder 2 .limitOrder .buy 100 4) 1).2.orderBook ∧
      Uncrossed (PlaceOrder c1exSt (exOrder 2 .limitOrder .buy 100 4) 1).2.orderBook) ∧
    (BookWF (CancelOrder c1exSt 1).2.orderBook ∧
      Uncrossed (CancelOrder c1exSt 1).2.orderBook)) :=
  ⟨⟨by decide, by decide, by decide, fun _ => by decide, by decide, by decide⟩,
   c3_uncrossed_across_calls c1exSt (exOrder 2 .limitOrder .buy 100 4) 1 1
     (by decide) (by decide) (by decide) (fun _ => by decide) (by decide) (by decide)⟩

/-- C5: cancelling an id with no live order returns `false` and changes no
state at all; cancelling a resting id removes exactly that order from its
level (empty levels are dropped, so the book stays well-formed), removes it
from the order index, leaves the trade history untouched, and returns
`true`; a second cancel of the same id then returns `false`; and a
cancellation submitted through `PlaceOrder` never produces a trade. -/
theorem c5_cancel_semantics (st : EngineState) (oid : Nat)
    (hwf : BookWF st.orderBook) :
    (oid ∉ sideIds st.orderBook.bids ++ sideIds st.orderBook.asks →
      CancelOrder st oid = (false, st)) ∧
    (oid ∈ sideIds st.orderBook.bids ++ sideIds st.orderBook.asks →
      (CancelOrder st oid).1 = true ∧
      (∀ p, lookupLevel (CancelOrder st oid).2.orderBook.bids p =
        (lookupLevel st.orderBook.bids p).filter (fun o => decide (¬ o.id = oid))) ∧
      (∀ p, lookupLevel (CancelOrder st oid).2.orderBook.asks p =
        (lookupLevel st.orderBook.asks p).filter (fun o => decide (¬ o.id = oid))) ∧
      (CancelOrder st oid).2.orderStore = st.orderStore.Remove oid ∧
      (CancelOrder st oid).2.tradeStore = st.tradeStore ∧
      BookWF (CancelOrder st oid).2.orderBook ∧
      (CancelOrder (CancelOrder st oid).2 oid).1 = false) ∧
    (∀ (o : Order) (now : Nat), o.orderType = .cancelOrder →
      (PlaceOrder st o now).1 = []) := by
  refine ⟨?_, ?_, ?_⟩
  · intro hnot
    exact CancelOrder_not_found st oid
      (fun hc => hnot (List.mem_append.mpr (Or.inl hc)))
      (fun hc => hnot (List.mem_append.mpr (Or.inr hc)))
  · intro hmem
    obtain ⟨ht, hlb, hla, hstore, htrades, hnb, hna⟩ :=
      CancelOrder_found st oid hwf hmem
    refine ⟨ht, hlb, hla, hstore, htrades, cancel_book_wf st oid hwf, ?_⟩
    rw [CancelOrder_not_found (CancelOrder st oid).2 oid hnb hna]
  · intro o now hty
    rw [PlaceOrder_trades, hty]

/-- A book holding one resting ask (id 1 at 101), used to exercise C5. -/
def c5exSt : EngineState :=
  (PlaceOrder exEmpty (exOrder 1 .limitOrder .sell 101 10) 0).2

theorem c5_witness :
    BookWF c5exSt.orderBook ∧
    ((1 ∉ sideIds c5exSt.orderBook.bids ++ sideIds c5exSt.orderBook.asks →
      CancelOrder c5exSt 1 = (false, c5exSt)) ∧
    (1 ∈ sideIds c5exSt.orderBook.bids ++ sideIds c5exSt.orderBook.asks →
      (CancelOrder c5exSt 1).1 = true ∧
      (∀ p, lookupLevel (CancelOrder c5exSt 1).2.orderBook.bids p =
        (lookupLevel c5exSt.orderBook.bids p).filter (fun o => decide (¬ o.id = 1))) ∧
      (∀ p, lookupLevel (CancelOrder c5exSt 1).2.orderBook.asks p =
        (lookupLevel c5exSt.orderBook.asks p).filter (fun o => decide (¬ o.id = 1))) ∧
      (CancelOrder c5exSt 1).2.orderStore = c5exSt.orderStore.Remove 1 ∧
      (CancelOrder c5exSt 1).2.tradeStore = c5exSt.tradeStore ∧
      BookWF (CancelOrder c5exSt 1).2.orderBook ∧
      (CancelOrder (CancelOrder c5exSt 1).2 1).1 = false) ∧
    (∀ (o : Order) (now : Nat), o.orderType = .cancelOrder →
      (PlaceOrder c5exSt o now).1 = [])) :=
  ⟨by decide, c5_cancel_semantics c5exSt 1 (by decide)⟩

/-- C6: submitting a valid limit order with a fresh id whose price does not
cross the opposite side's best price, then cancelling it by id, returns the
order book to its exact pre-submission value. -/
theorem c6_place_cancel_roundtrip (st : EngineState) (o : Order) (now : Nat)
    (hwf : BookWF st.orderBook)
    (hvalid : o.IsValid = true) (hty : o.orderType = .limitOrder)
    (hfresh1 : o.id ∉ sideIds st.orderBook.bids)
    (hfresh2 : o.id ∉ sideIds st.orderBook.asks)
    (hnc : if o.side = .buy
      then (GetBestAsk st.orderBook.asks).2 = [] ∨
        decide ((GetBestAsk st.orderBook.asks).1 ≤ o.price) = false
      else (GetBestBid st.orderBook.bids).2 = [] ∨
        decide (o.price ≤ (GetBestBid st.orderBook.bids).1) = false) :
    (CancelOrder (PlaceOrder st o now).2 o.id).2.orderBook = st.orderBook := by
  have hpb := place_noncross_book st o now hvalid hty hnc
  rw [CancelOrder_book, hpb]
  by_cases hside : o.side = .buy
  · rw [if_pos hside]
    have hd := delete_added_order st.orderBook.bids o hwf.1 hfresh1
    have hdb : DeleteBidOrder (AddBidOrder st.orderBook o) o.id = (true, st.orderBook) := by
      show ((DeleteOrderFromSide (AddBidOrder st.orderBook o).bids o.id).1,
        { AddBidOrder st.orderBook o with
          bids := (DeleteOrderFromSide (AddBidOrder st.orderBook o).bids o.id).2 }) =
        (true, st.orderBook)
      rw [show (AddBidOrder st.orderBook o).bids =
        setLevel st.orderBook.bids o.price
          (lookupLevel st.orderBook.bids o.price ++ [o]) from rfl, hd]
      rfl
    rw [DeleteOrderById, hdb]
    rfl
  · rw [if_neg hside]
    have hd := delete_added_order st.orderBook.asks o hwf.2.1 hfresh2
    have hnb : o.id ∉ sideIds (AddAskOrder st.orderBook o).bids := hfresh1
    have hdb := DeleteBidOrder_not_found (AddAskOrder st.orderBook o) o.id hnb
    have hda : DeleteAskOrder (AddAskOrder st.orderBook o) o.id = (true, st.orderBook) := by
      show ((DeleteOrderFromSide (AddAskOrder st.orderBook o).asks o.id).1,
        { AddAskOrder st.orderBook o with
          asks := (DeleteOrderFromSide (AddAskOrder st.orderBook o).asks o.id).2 }) =
        (true, st.orderBook)
      rw [show (AddAskOrder st.orderBook o).asks =
        setLevel st.orderBook.asks o.price
          (lookupLevel st.orderBook.asks o.price ++ [o]) from rfl, hd]
      rfl
    rw [DeleteOrderById, hdb, if_neg (by simp), hda]

/-- A book with one resting ask at 105 (id 1), used to exercise C6: the
bid at 100 does not cross it. -/
def c6exSt : EngineState :=
  (PlaceOrder exEmpty (exOrder 1 .limitOrder .sell 105 10) 0).2

theorem c6_witness :
    (BookWF c6exSt.orderBook ∧
      (exOrder 2 .limitOrder .buy 100 4).IsValid = true ∧
      (exOrder 2 .limitOrder .buy 100 4).orderType = .limitOrder ∧
      (exOrder 2 .limitOrder .buy 100 4).id ∉ sideIds c6exSt.orderBook.bids ∧
      (exOrder 2 .limitOrder .buy 100 4).id ∉ sideIds c6exSt.orderBook.asks ∧
      (if (exOrder 2 .limitOrder .buy 100 4).side = .buy
        then (GetBestAsk c6exSt.orderBook.asks).2 = [] ∨
          decide ((GetBestAsk c6exSt.orderBook.asks).1 ≤
            (exOrder 2 .limitOrder .buy 100 4).price) = false
        else (GetBestBid c6exSt.orderBook.bids).2 = [] ∨
          decide ((exOrder 2 .limitOrder .buy 100 4).price ≤
            (GetBestBid c6exSt.orderBook.bids).1) = false)) ∧
    (CancelOrder (PlaceOrder c6exSt (exOrder 2 .limitOrder .buy 100 4) 1).2
      (exOrder 2 .limitOrder .buy 100 4).id).2.orderBook = c6exSt.orderBook :=
  ⟨⟨by decide, by decide, rfl, by decide, by decide, by decide⟩,
   c6_place_cancel_roundtrip c6exSt (exOrder 2 .limitOrder .buy 100 4) 1
     (by decide) (by decide) rfl (by decide) (by decide) (by decide)⟩

/-- C7 refutation: a two-layer write in which the first layer fails and the
second succeeds.  At least one store succeeded, so per the claim the
composite should return success; the code instead surfaces the recorded
error. -/
theorem c7_counterexample :
    (none : Option Nat) ∈ [some 7, (none : Option Nat)] ∧
    compositeWrite [some 7, (none : Option Nat)] = some 7 := by
  refine ⟨by decide, by decide⟩

/-- C7 (amended): a composite write invokes every layer in order and
returns the LAST ERROR observed among the layers (`none` when no layer
errs); equivalently it succeeds exactly when every layer succeeded, not
when at least one did. -/
theorem c7_composite_write_last_error {E : Type} (rs : List (Option E)) :
    compositeWrite rs = (rs.filterMap id).getLast? ∧
    (compositeWrite rs = none ↔ ∀ r ∈ rs, r = none) :=
  compositeWrite_char rs

/-- C8 refutation: the first layer reports a genuine, error-free NOT-FOUND
(`(none, none)`), which the claim says is authoritative; the code instead
falls through and returns the hit `some 7` of the second layer. -/
theorem c8_counterexample :
    compositeGet [((none : Option Nat), (none : Option Nat)), (some 7, none)] =
      (some 7, none) ∧
    ¬ compositeGet [((none : Option Nat), (none : Option Nat)), (some 7, none)] =
      (none, none) := by
  refine ⟨by decide, by decide⟩

/-- C8 (amended): a composite get returns the first layer outcome that is
BOTH error-free and found; every other outcome — an error, or a successful
NOT-FOUND — falls through to the later layers, and the composite itself
never reports an error. -/
theorem c8_composite_get_first_hit {A E : Type} (rs : List (Option A × Option E)) :
    compositeGet rs = ((rs.filterMap compositeGetHit).head?, (none : Option E)) :=
  compositeGet_char rs

/-- Two distinguishable trades used to exercise C9. -/
def c9t1 : Trade := ⟨0, 1, 2, 10, 1, 0⟩

def c9t2 : Trade := ⟨0, 3, 4, 20, 1, 1⟩

/-- The store after appending `c9t1` then `c9t2`. -/
def c9St : MemTradeStore :=
  (MemTradeStore.Save (MemTradeStore.Save ⟨[], 1000⟩ c9t1) c9t2)

/-- C9 refutation: `c9t2` is the most recently appended trade, yet
`GetRecent 2` puts `c9t1` first — the store returns oldest-first, not
newest-first as claimed (the engine's `GetRecentTrades` has to reverse the
result to get the newest-first API order). -/
theorem c9_counterexample :
    c9St.trades.getLast? = some c9t2 ∧
    (c9St.GetRecent 2).head? = some c9t1 ∧
    ¬ c9t1 = c9t2 := by
  refine ⟨by decide, by decide, by decide⟩

/-- C9 (amended): for every positive limit `n`, `GetRecent n` returns the
`min n count` most recently appended trades in OLDEST-first (append) order:
its reverse is the newest-first prefix of the reversed log. -/
theorem c9_get_recent_oldest_first (s : MemTradeStore) (n : Int) (hn : 0 < n) :
    (s.GetRecent n).reverse = s.trades.reverse.take (min n.toNat s.trades.length) :=
  GetRecent_oldest_first s n hn

theorem c9_witness :
    (0 : Int) < 2 ∧
    (c9St.GetRecent 2).reverse =
      c9St.trades.reverse.take (min (2 : Int).toNat c9St.trades.length) :=
  ⟨by decide, c9_get_recent_oldest_first c9St 2 (by decide)⟩

/-- C10: an order of kind STOP-MARKET, STOP-LIMIT, or NO-OP produces no
trades and is never inserted into the book, yet `PlaceOrder` first saves it
into the order store and never removes it, so after the call it is still
retrievable by id from the order index. -/
theorem c10_stop_orders_tracked (st : EngineState) (o : Order) (now : Nat)
    (hty : o.orderType = .noActionOrder ∨ o.orderType = .stopMarketOrder ∨
      o.orderType = .stopLimitOrder) :
    (PlaceOrder st o now).1 = [] ∧
    (PlaceOrder st o now).2.orderBook = st.orderBook ∧
    GetOrder (PlaceOrder st o now).2 o.id = some o := by
  have hmain : ∀ h : o.orderType ≠ .cancelOrder,
      PlaceOrder st o now = ([], TrackOrder st o) →
      (PlaceOrder st o now).1 = [] ∧
      (PlaceOrder st o now).2.orderBook = st.orderBook ∧
      GetOrder (PlaceOrder st o now).2 o.id = some o := by
    intro _ heq
    rw [heq]
    exact ⟨rfl, rfl, Save_Get_self st.orderStore o⟩
  rcases hty with hty | hty | hty <;>
    refine hmain (by rw [hty]; intro hc; exact absurd hc (by simp)) ?_ <;>
    rw [PlaceOrder, hty] <;>
    rw [if_neg (by intro hc; exact absurd hc (by simp))]

theorem c10_witness :
    ((exOrder 5 .stopLimitOrder .buy 50 3).orderType = .noActionOrder ∨
      (exOrder 5 .stopLimitOrder .buy 50 3).orderType = .stopMarketOrder ∨
      (exOrder 5 .stopLimitOrder .buy 50 3).orderType = .stopLimitOrder) ∧
    ((PlaceOrder exEmpty (exOrder 5 .stopLimitOrder .buy 50 3) 0).1 = [] ∧
    (PlaceOrder exEmpty (exOrder 5 .stopLimitOrder .buy 50 3) 0).2.orderBook =
      exEmpty.orderBook ∧
    GetOrder (PlaceOrder exEmpty (exOrder 5 .stopLimitOrder .buy 50 3) 0).2
      (exOrder 5 .stopLimitOrder .buy 50 3).id =
      some (exOrder 5 .stopLimitOrder .buy 50 3)) :=
  ⟨Or.inr (Or.inr rfl),
   c10_stop_orders_tracked exEmpty (exOrder 5 .stopLimitOrder .buy 50 3) 0
     (Or.inr (Or.inr rfl))⟩

end MatchingSpec
